import Mathlib

/-!
# Verification of the konfig path mini-language

A shallow embedding of `src/konfig/paths.py`: the `Path` value type (validation,
equality, hashing, canonical formatting) and the Lark grammar together with the
tree transformer that drives `Path.from_str`.

Modelling conventions, stated once here:

* Python `int` is `Int`; Python `float` is modelled as an exact rational
  (`Rat`).  IEEE-754 rounding, `inf` and `nan` are outside the model; no
  settled claim depends on float-specific behaviour.
* Python `str` is `String`; the Unicode-category character classes of the
  grammar (`\p{Lu}` …) and Python's `str.isidentifier` are modelled on their
  common ASCII fragment (`[A-Za-z_]` to start, plus `[0-9]` to continue).
  Outside ASCII the two notions differ in the real system; the theorems below
  only evaluate identifier behaviour on ASCII strings.
* The grammar is run by Lark (Earley, dynamic lexer, no `%ignore`
  declaration, `maybe_placeholders` off, as in the Lark releases contemporary
  with this Python‑3.9-era code).  An optional group `[ … ]` therefore behaves
  as plain optionality, whitespace is never skipped, and a lazy string-literal
  regex matches up to the first closing quote that is preceded by an even run
  of backslashes.
* `Path.__hash__` and `Path.__repr__` are both wrapped in `@functools.cache`
  (paths.py lines 32 and 46).  The wrapper must hash its call key `(self,)`,
  which re-enters the cached `__hash__` before any result can be computed or
  stored, so in the program **every** `hash(path)` and `repr(path)` raises
  `RecursionError` (verified empirically on a standalone reproduction).  The
  definitions `pathHash` and `pathRepr` below model only the bodies of the
  wrapped functions; nothing here equates them with the observable behaviour
  of the decorated methods, which never return.
-/

namespace Konfig

/-! ## Character classes and decimal digits -/

/-- ASCII decimal digit, the `\d` of the grammar's `DEC_NUMBER: -?\d+`. -/
def isDigitC (c : Char) : Bool := '0' ≤ c && c ≤ '9'

/-- Hexadecimal digit, the `[\da-f]` (case-insensitive) of `HEX_NUMBER`. -/
def isHexDigitC (c : Char) : Bool :=
  isDigitC c || ('a' ≤ c && c ≤ 'f') || ('A' ≤ c && c ≤ 'F')

/-- Octal digit, the `[0-7]` of `OCT_NUMBER`. -/
def isOctDigitC (c : Char) : Bool := '0' ≤ c && c ≤ '7'

/-- Binary digit, the `[0-1]` of `BIN_NUMBER`. -/
def isBinDigitC (c : Char) : Bool := c = '0' || c = '1'

/-- ASCII fragment of the grammar's `ID_START`
(`/[\p{Lu}\p{Ll}\p{Lt}\p{Lm}\p{Lo}\p{Nl}_]/`): Latin letters and underscore.
This is also the ASCII fragment of the start condition of Python's
`str.isidentifier`. -/
def isIdStartC (c : Char) : Bool :=
  ('a' ≤ c && c ≤ 'z') || ('A' ≤ c && c ≤ 'Z') || c = '_'

/-- ASCII fragment of the grammar's `ID_CONTINUE`
(`ID_START` together with `/[\p{Mn}\p{Mc}\p{Nd}\p{Pc}·]/`): the start class
plus decimal digits. -/
def isIdContC (c : Char) : Bool := isIdStartC c || isDigitC c

/-- Numeric value of an ASCII digit. -/
def digitVal (c : Char) : Nat := c.toNat - 48

/-- Numeric value of a hexadecimal digit (either case). -/
def hexDigitVal (c : Char) : Nat :=
  if isDigitC c then c.toNat - 48
  else if 'a' ≤ c && c ≤ 'f' then c.toNat - 87
  else c.toNat - 55

/-- Value of a decimal digit string, most significant digit first. -/
def digitsVal (l : List Char) : Nat := l.foldl (fun a c => 10 * a + digitVal c) 0

/-- Value of a hexadecimal digit string. -/
def hexVal (l : List Char) : Nat := l.foldl (fun a c => 16 * a + hexDigitVal c) 0

/-- Value of an octal digit string. -/
def octVal (l : List Char) : Nat := l.foldl (fun a c => 8 * a + digitVal c) 0

/-- Value of a binary digit string. -/
def binVal (l : List Char) : Nat := l.foldl (fun a c => 2 * a + digitVal c) 0

/-- The ASCII digit character for `n < 10`. -/
def digitChar (n : Nat) : Char := Char.ofNat (48 + n)

/-- Fuelled decimal rendering of a natural number (most significant first).
The fuel only serves structural termination; `natDec` supplies enough. -/
def natDecA : Nat → Nat → List Char
  | 0, _ => []
  | f + 1, n => if n < 10 then [digitChar n] else natDecA f (n / 10) ++ [digitChar (n % 10)]

/-- Decimal rendering of a natural number, as produced by Python's `str`/`repr`. -/
def natDec (n : Nat) : List Char := natDecA (n + 1) n

/-- Decimal rendering of an integer, as produced by Python's `str`/`repr`. -/
def intRepr (n : Int) : List Char :=
  if n < 0 then '-' :: natDec n.natAbs else natDec n.natAbs

/-! ## The value domain

Keys of a konfig `Path` are arbitrary Python runtime values offered to
`Path.__init__`; the validator `Path._is_valid_part` decides which of them are
admissible.  The embedding enumerates the kinds the source distinguishes, plus
two representatives of the rejected world (`list`, `other`), plus the `slice`
class object that `Path.__hash__` (line 35) inserts when decomposing a slice.
Tuples nest through the mutual list type `PyVals`. -/

mutual
inductive PyVal : Type where
  | int (n : Int)
  | bool (b : Bool)
  | float (q : Rat)
  | complex (re im : Rat)
  | str (s : String)
  | pynone
  | slice (start stop step : Option Int)
  | sliceCls
  | tuple (xs : PyVals)
  | list (xs : PyVals)
  | other (tag : String)

inductive PyVals : Type where
  | nil
  | cons (x : PyVal) (xs : PyVals)
end

/-- Convert an ordinary list of keys into the mutual list type. -/
def PyVals.ofList : List PyVal → PyVals
  | [] => .nil
  | x :: xs => .cons x (PyVals.ofList xs)

/-- Whether a `PyVals` has exactly one element (Python's single-element-tuple
trailing-comma rule in `repr`). -/
def PyVals.isSingleton : PyVals → Bool
  | .cons _ .nil => true
  | _ => false

/-- The numeric value of a key, as a complex rational `(re, im)`, when the key
belongs to Python's numeric tower (`bool` counts as `0`/`1`, mirroring the
host's bool-int subtyping). -/
def numVal : PyVal → Option (Rat × Rat)
  | .int n => some ((n : Rat), 0)
  | .bool b => some (if b then 1 else 0, 0)
  | .float q => some (q, 0)
  | .complex re im => some (re, im)
  | _ => none

mutual
/-- Python's `==` on the modelled values: numeric kinds compare by numeric
value (so `True == 1` and `1 == 1.0`), strings, `None`, slices (componentwise,
as Python's `slice.__eq__`), tuples and lists elementwise; everything else is
`False`.  Distinct `other` values compare by tag, standing for CPython's
identity-based default equality.  (`nan`, whose Python comparison is not
value-based, is outside the rational float model.) -/
def pyEq : PyVal → PyVal → Bool
  | .str a, .str b => a == b
  | .pynone, .pynone => true
  | .slice a b c, .slice d e f => a == d && b == e && c == f
  | .sliceCls, .sliceCls => true
  | .tuple xs, .tuple ys => pyEqList xs ys
  | .list xs, .list ys => pyEqList xs ys
  | .other a, .other b => a == b
  | v, w =>
    match numVal v, numVal w with
    | some a, some b => a == b
    | _, _ => false

/-- Python's `==` on tuples/lists: equal length and elementwise `pyEq`. -/
def pyEqList : PyVals → PyVals → Bool
  | .nil, .nil => true
  | .cons x xs, .cons y ys => pyEq x y && pyEqList xs ys
  | _, _ => false
end

mutual
/-- `Path._is_valid_part` (paths.py lines 16–24): `int`, `float`, `complex`,
`slice`, `str`, `bool` and `None` are admissible, a tuple is admissible when
all of its elements are, and everything else is rejected. -/
def isValidPart : PyVal → Bool
  | .int _ => true
  | .bool _ => true
  | .float _ => true
  | .complex _ _ => true
  | .str _ => true
  | .pynone => true
  | .slice _ _ _ => true
  | .tuple xs => isValidParts xs
  | _ => false

/-- All elements of a tuple are admissible (`all(cls._is_valid_part(p) for p in part)`). -/
def isValidParts : PyVals → Bool
  | .nil => true
  | .cons x xs => isValidPart x && isValidParts xs
end

/-! ## Rendering: Python `repr` and the canonical formatter -/

/-- The quote character Python's `repr` picks for a string: a single quote,
unless the string contains a single quote and no double quote. -/
def strQuote (s : String) : Char :=
  if s.data.contains '\'' && !(s.data.contains '"') then '"' else '\''

/-- The hexadecimal digit character for `n < 16`, lower case. -/
def hexDigitChar (n : Nat) : Char :=
  if n < 10 then Char.ofNat (48 + n) else Char.ofNat (87 + n)

/-- One character of a Python string `repr` body: backslashes and the chosen
quote are backslash-escaped, newline/carriage-return/tab become `\n`/`\r`/`\t`,
other ASCII control characters become `\xhh`.  Non-ASCII characters are kept
verbatim; the host would additionally `\x`-escape the non-printable ones (a
Unicode-table question outside this model — the theorems below only evaluate
string rendering on printable ASCII). -/
def escChar (q c : Char) : List Char :=
  if c = '\\' then ['\\', '\\']
  else if c = q then ['\\', q]
  else if c = '\n' then ['\\', 'n']
  else if c = '\r' then ['\\', 'r']
  else if c = '\t' then ['\\', 't']
  else if c.toNat < 32 || c.toNat = 127 then
    ['\\', 'x', hexDigitChar (c.toNat / 16 % 16), hexDigitChar (c.toNat % 16)]
  else [c]

/-- Python `repr` of a string: chosen quote, escaped body, chosen quote. -/
def strReprC (s : String) : List Char :=
  strQuote s :: s.data.flatMap (escChar (strQuote s)) ++ [strQuote s]

/-- Decimal expansion of the fractional part of a rational in `[0,1)`;
fuelled, emitting one digit per unit of fuel and stopping at remainder zero. -/
def fracDigits : Nat → Rat → List Char
  | 0, _ => []
  | f + 1, q =>
    if q = 0 then []
    else
      let d : Int := (q * 10).floor
      digitChar d.toNat :: fracDigits f (q * 10 - (d : Rat))

/-- Rendering of a model float.  The host renders the shortest decimal that
round-trips the IEEE double; the embedding's floats are exact rationals and
are rendered as exact decimals (integral values with a trailing `.0`, as in
Python).  No settled claim depends on this branch. -/
def floatRepr (q : Rat) : List Char :=
  let a : Rat := |q|
  let body := natDec a.floor.toNat ++ '.'
    :: (if a.den = 1 then ['0'] else fracDigits 64 (a - (a.floor : Rat)))
  if q < 0 then '-' :: body else body

/-- A numeric component inside a complex `repr`: like `floatRepr` but with the
trailing `.0` dropped for integral values, as the host does. -/
def cpxPart (q : Rat) : List Char :=
  if q.den = 1 then intRepr q.num else floatRepr q

/-- Rendering of a model complex number, following the host's `repr` shape:
pure-imaginary values render as `bj`, others as `(a+bj)`/`(a-bj)`.  No settled
claim depends on this branch. -/
def complexRepr (re im : Rat) : List Char :=
  if re = 0 then cpxPart im ++ ['j']
  else if im < 0 then '(' :: cpxPart re ++ '-' :: cpxPart (-im) ++ ['j', ')']
  else '(' :: cpxPart re ++ '+' :: cpxPart im ++ ['j', ')']

/-- `repr` of an optional integer (a slice bound): `None` or the number. -/
def optIntRepr : Option Int → List Char
  | none => ['N', 'o', 'n', 'e']
  | some n => intRepr n

mutual
/-- Python `repr` of a modelled value: decimal integers, `True`/`False`/`None`
keywords, quoted strings, `slice(a, b, c)`, parenthesised tuples with the
single-element trailing comma and `", "` separators, bracketed lists.  The
`repr` of the `slice` class object never reaches any formatted output (it only
exists inside hash decomposition) and is given a fixed placeholder; `other`
carries its own display text. -/
def reprC : PyVal → List Char
  | .int n => intRepr n
  | .bool b => if b then ['T', 'r', 'u', 'e'] else ['F', 'a', 'l', 's', 'e']
  | .float q => floatRepr q
  | .complex re im => complexRepr re im
  | .str s => strReprC s
  | .pynone => ['N', 'o', 'n', 'e']
  | .slice a b c =>
    ['s', 'l', 'i', 'c', 'e', '('] ++ optIntRepr a ++ [',', ' '] ++ optIntRepr b
      ++ [',', ' '] ++ optIntRepr c ++ [')']
  | .sliceCls => ['<', 'c', 'l', 'a', 's', 's', ' ', 's', 'l', 'i', 'c', 'e', '>']
  | .tuple xs => '(' :: reprListC xs ++ (if xs.isSingleton then [',', ')'] else [')'])
  | .list xs => '[' :: reprListC xs ++ [']']
  | .other tag => tag.data

/-- The `", "`-separated element renderings inside a tuple or list `repr`. -/
def reprListC : PyVals → List Char
  | .nil => []
  | .cons x .nil => reprC x
  | .cons x xs => reprC x ++ ',' :: ' ' :: reprListC xs
end

/-- ASCII model of Python's `str.isidentifier`, as used by
`Path.format_part` (line 54): nonempty, an identifier-start character followed
by identifier-continue characters. -/
def isIdentB (s : String) : Bool :=
  match s.data with
  | [] => false
  | c :: t => isIdStartC c && t.all isIdContC

/-- The text of a slice bound inside the canonical slice rendering: absent
bounds render as nothing (`str(f) for f in fm if f is not None`, line 60). -/
def sliceBound : Option Int → List Char
  | none => []
  | some n => intRepr n

/-- The bracket body `Path.format_part` builds for a slice (lines 56–61):
`start? ":" stop?`, with `":" step` appended only when a step is present. -/
def sliceFmtC (a b : Option Int) (c : Option Int) : List Char :=
  sliceBound a ++ ':' :: sliceBound b ++
    (match c with
     | none => []
     | some n => ':' :: intRepr n)

/-- `Path.format_part` (lines 52–63): identifier strings become dotted
segments, slices get colon syntax in brackets, everything else is bracketed
`repr`. -/
def formatPartC : PyVal → List Char
  | .str s => if isIdentB s then '.' :: s.data else '[' :: strReprC s ++ [']']
  | .slice a b c => '[' :: sliceFmtC a b c ++ [']']
  | v => '[' :: reprC v ++ [']']

/-- The body of `Path.__repr__` (lines 47–50): concatenate the per-part
strings and strip a single leading dot.  This is what the function wrapped by
`@functools.cache` would compute; the decorated method itself never returns
(see the header note on the cache recursion). -/
def pathReprC (parts : List PyVal) : List Char :=
  match (parts.map formatPartC).flatten with
  | '.' :: t => t
  | r => r

/-! ## The Path value type -/

/-- A konfig `Path`: the (not yet validated) tuple of parts. -/
structure PyPath : Type where
  parts : List PyVal

/-- The body of `Path.__repr__` as a string: the canonical text the method
was meant to return.  In the program the `@functools.cache` wrapper
(line 46) hashes the call key `(self,)`, re-entering the cached `__hash__`,
so `repr(path)` raises `RecursionError` for every Path and this string is
never produced. -/
def pathRepr (p : PyPath) : String := ⟨pathReprC p.parts⟩

/-- `Path.__init__` (lines 11–14): validate the whole parts tuple with
`_is_valid_part` and either build the Path or raise
`ValueError(f"invalid part(s) {parts}")`. -/
def construct (ks : List PyVal) : Except String PyPath :=
  if isValidPart (.tuple (PyVals.ofList ks)) then .ok ⟨ks⟩
  else .error ("invalid part(s) " ++ String.mk (reprC (.tuple (PyVals.ofList ks))))

/-- Any Python value that might stand on the right of `Path.__eq__`. -/
inductive PyObj : Type where
  | path (p : PyPath)
  | val (v : PyVal)

/-- Tuple equality of the two part sequences, as Python compares
`self.parts == other.parts`: equal length and elementwise `==`. -/
def partsEq : List PyVal → List PyVal → Bool
  | [], [] => true
  | x :: xs, y :: ys => pyEq x y && partsEq xs ys
  | _, _ => false

/-- `Path.__eq__` (lines 40–44): parts-tuple equality against another Path,
`False` against anything else. -/
def pathEqObj (p : PyPath) : PyObj → Bool
  | .path q => partsEq p.parts q.parts
  | .val _ => false

/-- Equality of two Paths (the Path/Path case of `Path.__eq__`). -/
def pathEqB (p q : PyPath) : Bool := partsEq p.parts q.parts

/-! ## Hashing -/

mutual
/-- The hash value domain.  CPython's builtin `hash` is a function into the
machine integers that is constant on `==`-classes (numbers hash through their
exact numeric value).  The embedding models a hash value by the `==`-canonical
form itself, which `hash` factors through; collisions between distinct
canonical forms are not modelled, and no claim relies on their absence. -/
inductive HashV : Type where
  | num (re im : Rat)
  | str (s : String)
  | none
  | sliceMark
  | obj (tag : String)
  | tup (xs : HashVs)

inductive HashVs : Type where
  | nil
  | cons (x : HashV) (xs : HashVs)
end

mutual
/-- CPython's builtin `hash` on modelled values: numbers through their numeric
value, tuples recursively; slices and lists are unhashable (`none` stands for
the host's `TypeError`), matching the slice-unhashability that motivates the
decomposition in `Path.__hash__`. -/
def pyHash : PyVal → Option HashV
  | .int n => some (.num (n : Rat) 0)
  | .bool b => some (.num (if b then 1 else 0) 0)
  | .float q => some (.num q 0)
  | .complex re im => some (.num re im)
  | .str s => some (.str s)
  | .pynone => some .none
  | .sliceCls => some .sliceMark
  | .slice _ _ _ => none
  | .tuple xs => (pyHashList xs).map .tup
  | .list _ => none
  | .other tag => some (.obj tag)

/-- Hash of a tuple's elements; fails as soon as one element is unhashable. -/
def pyHashList : PyVals → Option HashVs
  | .nil => some .nil
  | .cons x xs =>
    match pyHash x, pyHashList xs with
    | some h, some hs => some (.cons h hs)
    | _, _ => Option.none
end

/-- A slice bound as the value Python puts into the decomposed hash tuple. -/
def optIntVal : Option Int → PyVal
  | none => .pynone
  | some n => .int n

/-- The per-part conversion of `Path.__hash__` (lines 34–37): a slice is
replaced by the tuple `(slice, start, stop, step)`, every other part is kept. -/
def hashablePart : PyVal → PyVal
  | .slice a b c =>
    .tuple (.cons .sliceCls (.cons (optIntVal a) (.cons (optIntVal b)
      (.cons (optIntVal c) .nil))))
  | v => v

/-- The body of `Path.__hash__` (lines 33–38): hash of the tuple of converted
parts.  In the program the `@functools.cache` wrapper (line 32) hashes the
call key `(self,)`, re-entering `__hash__` itself, so `hash(path)` raises
`RecursionError` for every Path and this value is never produced. -/
def pathHash (p : PyPath) : Option HashV :=
  pyHash (.tuple (PyVals.ofList (p.parts.map hashablePart)))

/-! ## The parser

`Path.from_str` runs the Lark grammar (paths.py lines 72–120) and the
`PathTransformer` (lines 123–161).  The embedding is a recursive-descent
parser over `List Char` that follows the productions literally and applies
the transformer's per-node conversions in place; parse errors, and the
transformer's own conversion errors (`literal_eval`/`int` raising on tokens
such as `0x` with no digits, hex integers inside slices, or decimal integers
with leading zeros), are `none`.  Grammar faithfulness is stated against the
independent grammar relation of the next section (`parsePath_sound`).
`PathTransformer.identifier` (line 130) is `str(args[0])`: the `identifier`
rule produces one `ID_START` token (a maximal run of start-class characters)
followed by further `ID_CONTINUE` tokens, and only the first is kept, so an
identifier segment's value is the leading start-class run of its text — in
the program `from_str("x1")` yields `Path("x")`, dropping the digit run. -/

/-- Scan a string-literal body after the opening quote `q`, mirroring the lazy
regex `".*?(?<!\\)(\\\\)*?"`: stop at the first `q` preceded by an even run of
backslashes; `esc` records whether the current position is preceded by an odd
run.  The dot of the regex does not match a newline.  Returns the raw body and
the input after the closing quote. -/
def scanStrB (q : Char) : Bool → List Char → Option (List Char × List Char)
  | _, [] => none
  | esc, c :: t =>
    if c = '\n' then none
    else if c = q && !esc then some ([], t)
    else if c = '\\' then (scanStrB q (!esc) t).map (fun p => (c :: p.1, p.2))
    else (scanStrB q false t).map (fun p => (c :: p.1, p.2))

/-- Scan one identifier (`identifier: ID_START ID_CONTINUE*`), maximal munch. -/
def scanIdent (l : List Char) : Option (List Char × List Char) :=
  match l with
  | c :: t =>
    if isIdStartC c then some (c :: t.takeWhile isIdContC, t.dropWhile isIdContC)
    else none
  | [] => none

/-- Split the optional leading `-` sign (as text) off a numeric token. -/
def splitSign : List Char → List Char × List Char
  | [] => ([], [])
  | c :: t => if c = '-' then (['-'], t) else ([], c :: t)

/-- Scan an exponent part `e[-+]?\d+` if present; otherwise consume nothing. -/
def scanExp (r : List Char) : List Char × List Char :=
  match r with
  | e :: rest =>
    if e = 'e' || e = 'E' then
      match rest with
      | s :: rest2 =>
        if s = '+' || s = '-' then
          let ds := rest2.takeWhile isDigitC
          if ds = [] then ([], r) else (e :: s :: ds, rest2.dropWhile isDigitC)
        else
          let ds := rest.takeWhile isDigitC
          if ds = [] then ([], r) else (e :: ds, rest.dropWhile isDigitC)
      | [] => ([], r)
    else ([], r)
  | [] => ([], r)

/-- Consume a trailing `j`/`J` (the `IMAG_NUMBER` suffix) if present. -/
def scanJ (r : List Char) : List Char × List Char :=
  match r with
  | c :: t => if c = 'j' || c = 'J' then ([c], t) else ([], r)
  | [] => ([], r)

/-- Scan the decimal/float/imaginary token shapes
(`\d+\.\d*|\.\d+|\d+`, optional exponent, optional `j`). -/
def scanDecFloat (sgn l1 : List Char) : Option (List Char × List Char) :=
  let d1 := l1.takeWhile isDigitC
  let r1 := l1.dropWhile isDigitC
  match r1 with
  | '.' :: t =>
    let d2 := t.takeWhile isDigitC
    let r2 := t.dropWhile isDigitC
    if d1 = [] && d2 = [] then none
    else
      let er := scanExp r2
      let jr := scanJ er.2
      some (sgn ++ d1 ++ '.' :: d2 ++ er.1 ++ jr.1, jr.2)
  | _ =>
    if d1 = [] then none
    else
      let er := scanExp r1
      let jr := scanJ er.2
      some (sgn ++ d1 ++ er.1 ++ jr.1, jr.2)

/-- Dispatch between the radix-prefixed integer terminals and the
decimal/float/imaginary shapes, after the sign. -/
def scanNumDispatch (sgn l1 : List Char) : Option (List Char × List Char) :=
  match l1 with
  | c :: x :: t =>
    if c = '0' && (x = 'x' || x = 'X') then
      some (sgn ++ c :: x :: t.takeWhile isHexDigitC, t.dropWhile isHexDigitC)
    else if c = '0' && (x = 'o' || x = 'O') then
      some (sgn ++ c :: x :: t.takeWhile isOctDigitC, t.dropWhile isOctDigitC)
    else if c = '0' && (x = 'b' || x = 'B') then
      some (sgn ++ c :: x :: t.takeWhile isBinDigitC, t.dropWhile isBinDigitC)
    else scanDecFloat sgn (c :: x :: t)
  | _ => scanDecFloat sgn l1

/-- Scan one numeric token: `DEC_NUMBER`, `HEX_NUMBER`, `OCT_NUMBER`,
`BIN_NUMBER`, `FLOAT_NUMBER` or `IMAG_NUMBER` (maximal munch, sign included;
the parenthesised `COMPLEX_NUMBER` form is `parseComplexTok`).  Radix tokens
may have an empty digit run, exactly as the `*` in their regexes allows. -/
def scanNumberTok (l : List Char) : Option (List Char × List Char) :=
  scanNumDispatch (splitSign l).1 (splitSign l).2

/-- Split a leading `-` sign off a token. -/
def dropSignTok (l : List Char) : Bool × List Char :=
  match l with
  | [] => (false, [])
  | c :: t => if c = '-' then (true, t) else (false, c :: t)

def applySign (neg : Bool) (n : Int) : Int := if neg then -n else n

/-- Whether a token ends in the imaginary suffix `j`/`J`. -/
def tokIsImag (tk : List Char) : Bool :=
  match tk.getLast? with
  | some c => c = 'j' || c = 'J'
  | none => false

/-- Whether a token is a `DEC_NUMBER` or `FLOAT_NUMBER` (no radix prefix, no
imaginary suffix) — the real-part shapes the `COMPLEX_NUMBER` regex admits. -/
def tokIsIntOrFloat (tk : List Char) : Bool :=
  (match (dropSignTok tk).2 with
   | c :: x :: _ =>
     !(c = '0' && (x = 'x' || x = 'X' || x = 'o' || x = 'O' || x = 'b' || x = 'B'))
   | _ => true) && !tokIsImag tk

/-- Exact rational value `d1.d2` of a decimal mantissa. -/
def ratFromMant (d1 d2 : List Char) : Rat :=
  ((digitsVal (d1 ++ d2) : Int) : Rat) / ((10 : Rat) ^ d2.length)

/-- `10 ^ e` for a signed exponent. -/
def ratPow10 (e : Int) : Rat :=
  if e < 0 then 1 / (10 : Rat) ^ e.natAbs else (10 : Rat) ^ e.toNat

/-- Exact value of an unsigned decimal/float/imaginary token body (any
trailing `j` ignored): mantissa times exponent. -/
def ratOfBody (b : List Char) : Rat :=
  let m0 :=
    match b.getLast? with
    | some c => if c = 'j' || c = 'J' then b.dropLast else b
    | none => b
  let mant := m0.takeWhile (fun c => !(c = 'e' || c = 'E'))
  let ex := m0.dropWhile (fun c => !(c = 'e' || c = 'E'))
  let d1 := mant.takeWhile isDigitC
  let d2 :=
    match mant.dropWhile isDigitC with
    | '.' :: t => t
    | _ => []
  let expVal : Int :=
    match ex with
    | _ :: '+' :: ds => (digitsVal ds : Int)
    | _ :: '-' :: ds => -(digitsVal ds : Int)
    | _ :: ds => (digitsVal ds : Int)
    | [] => 0
  ratFromMant d1 d2 * ratPow10 expVal

/-- Exact value of a signed decimal/float/imaginary token. -/
def ratOfNumTok (tk : List Char) : Rat :=
  let p := dropSignTok tk
  if p.1 then -(ratOfBody p.2) else ratOfBody p.2

/-- Python's decimal integer literal rule enforced by `literal_eval`: no
leading zero unless the digit run is all zeros. -/
def decNoLeadingZero (ds : List Char) : Bool :=
  match ds with
  | c :: d :: t => !(c = '0') || (c :: d :: t).all (· = '0')
  | _ => true

/-- The signless decimal/float/imaginary part of `literal_eval` on a number
token (`PathTransformer.number`, line 145): imaginary tokens become pure
imaginary complex numbers, tokens with a dot or exponent become floats, plain
digit runs become integers subject to the leading-zero rule. -/
def plainFromTok (neg : Bool) (b : List Char) : Option PyVal :=
  let v0 := ratOfBody b
  let v := if neg then -v0 else v0
  if tokIsImag b then some (.complex 0 v)
  else if b.any (fun c => c = '.' || c = 'e' || c = 'E') then some (.float v)
  else if decNoLeadingZero b then some (.int (applySign neg (digitsVal b)))
  else none

/-- The radix-or-decimal dispatch of `literal_eval` on a signless number-token
body: radix integers need at least one digit (`literal_eval("0x")` raises). -/
def numRadixDispatch (neg : Bool) (b : List Char) : Option PyVal :=
  match b with
  | c :: x :: ds =>
    if c = '0' && (x = 'x' || x = 'X') then
      if ds = [] then none else some (.int (applySign neg (hexVal ds)))
    else if c = '0' && (x = 'o' || x = 'O') then
      if ds = [] then none else some (.int (applySign neg (octVal ds)))
    else if c = '0' && (x = 'b' || x = 'B') then
      if ds = [] then none else some (.int (applySign neg (binVal ds)))
    else plainFromTok neg (c :: x :: ds)
  | b2 => plainFromTok neg b2

/-- `literal_eval` on a (non-parenthesised) number token
(`PathTransformer.number`, line 145). -/
def numFromTok (tk : List Char) : Option PyVal :=
  numRadixDispatch (dropSignTok tk).1 (dropSignTok tk).2

/-- The parenthesised `COMPLEX_NUMBER` form
`"(" (FLOAT_NUMBER | DEC_NUMBER) [+-] IMAG_NUMBER ")"`, with
`literal_eval`'s value `re ± im·j`. -/
def parseComplexTok (l : List Char) : Option (PyVal × List Char) :=
  match l with
  | '(' :: t =>
    match scanNumberTok t with
    | some (tk1, r1) =>
      if tokIsIntOrFloat tk1 then
        match r1 with
        | op :: r2 =>
          if op = '+' || op = '-' then
            match scanNumberTok r2 with
            | some (tk2, r3) =>
              if tokIsImag tk2 then
                match r3 with
                | ')' :: r4 =>
                  let im0 := ratOfNumTok tk2
                  some (.complex (ratOfNumTok tk1) (if op = '-' then -im0 else im0), r4)
                | _ => none
              else none
            | none => none
          else none
        | [] => none
      else none
    | none => none
  | _ => none

/-- Optionally scan one decimal integer (the slice bounds go through Python's
`int()` in `PathTransformer.slice_key`, which accepts signed decimal digit
runs only); consumes nothing on failure. -/
def scanIntOpt (l : List Char) : Option Int × List Char :=
  match l with
  | '-' :: t =>
    let ds := t.takeWhile isDigitC
    if ds = [] then (none, l) else (some (-(digitsVal ds : Int)), t.dropWhile isDigitC)
  | _ =>
    let ds := l.takeWhile isDigitC
    if ds = [] then (none, l) else (some ((digitsVal ds : Int)), l.dropWhile isDigitC)

/-- The `slice_key` productions `[integer] ":" [integer]` and
`[integer] ":" [integer] ":" [integer]`, with `PathTransformer.slice_key`'s
value (absent bounds are `None`; a missing third slot is `None`). -/
def parseSliceTry (l : List Char) : Option (PyVal × List Char) :=
  let p1 := scanIntOpt l
  match p1.2 with
  | ':' :: t =>
    let p2 := scanIntOpt t
    match p2.2 with
    | ':' :: u =>
      let p3 := scanIntOpt u
      some (.slice p1.1 p2.1 p3.1, p3.2)
    | _ => some (.slice p1.1 p2.1 none, p2.2)
  | _ => none

/-- The keyword keys `"True" | "False"` and `"None"`. -/
def parseKeyword (l : List Char) : Option (PyVal × List Char) :=
  match l with
  | 'T' :: 'r' :: 'u' :: 'e' :: r => some (.bool true, r)
  | 'F' :: 'a' :: 'l' :: 's' :: 'e' :: r => some (.bool false, r)
  | 'N' :: 'o' :: 'n' :: 'e' :: r => some (.pynone, r)
  | _ => none

mutual
/-- One `key` of the grammar, transformed: strings keep their raw body with
the quotes stripped (`PathTransformer.string`, lines 155–157), tuples follow
the three `tuple_key` productions, `True`/`False`/`None` become literals,
and otherwise a slice or a numeric literal is read.  The fuel bounds the
recursion depth; any fuel exceeding the input length suffices. -/
def parseKeyCore : Nat → List Char → Option (PyVal × List Char)
  | 0, _ => none
  | f + 1, l =>
    match l with
    | [] => none
    | c :: t =>
      if c = '\'' || c = '"' then
        (scanStrB c false t).map (fun p => (.str ⟨p.1⟩, p.2))
      else if c = '(' then
        match parseComplexTok l with
        | some res => some res
        | none =>
          match t with
          | ')' :: r => some (.tuple .nil, r)
          | _ =>
            match parseKeyCore f t with
            | some (k, r) =>
              (parseTupRest1 f r).map (fun p => (.tuple (.cons k p.1), p.2))
            | none => none
      else if c = 'T' || c = 'F' || c = 'N' then parseKeyword l
      else
        match parseSliceTry l with
        | some res => some res
        | none =>
          match scanNumberTok l with
          | some (tk, r) => (numFromTok tk).map (fun v => (v, r))
          | none => none

/-- After the first tuple element: the grammar requires a comma — either the
single-element close `",)"` or further `"," key` items. -/
def parseTupRest1 : Nat → List Char → Option (PyVals × List Char)
  | 0, _ => none
  | f + 1, l =>
    match l with
    | ',' :: ')' :: r => some (.nil, r)
    | ',' :: t =>
      match parseKeyCore f t with
      | some (k, r) => (parseTupRestN f r).map (fun p => (.cons k p.1, p.2))
      | none => none
    | _ => none

/-- After the second and later tuple elements: close with `")"`, with the
optional trailing comma `",)"`, or continue with `"," key`. -/
def parseTupRestN : Nat → List Char → Option (PyVals × List Char)
  | 0, _ => none
  | f + 1, l =>
    match l with
    | ')' :: r => some (.nil, r)
    | ',' :: ')' :: r => some (.nil, r)
    | ',' :: t =>
      match parseKeyCore f t with
      | some (k, r) => (parseTupRestN f r).map (fun p => (.cons k p.1, p.2))
      | none => none
    | _ => none
end

/-- `PathTransformer.identifier` (line 130): `str(args[0])`.  The rule
`identifier: ID_START ID_CONTINUE*` yields one `ID_START` token — the leading
maximal run of start-class characters — followed by further `ID_CONTINUE`
tokens, and only that first token becomes the key's value: digit and other
continue-class runs are consumed from the input but dropped from the value. -/
def identValue (w : List Char) : String := ⟨w.takeWhile isIdStartC⟩

/-- The repeated segments `("." identifier | "[" key "]")*` of the `path`
production, each transformed to its key; stops (without consuming) at the
first character that starts neither form. -/
def parseSegsCore : Nat → List Char → Option (List PyVal × List Char)
  | 0, _ => none
  | f + 1, l =>
    match l with
    | '.' :: t =>
      match scanIdent t with
      | some (w, r) => (parseSegsCore f r).map (fun p => (.str (identValue w) :: p.1, p.2))
      | none => none
    | '[' :: t =>
      match parseKeyCore (t.length + 1) t with
      | some (k, r) =>
        match r with
        | ']' :: r2 => (parseSegsCore f r2).map (fun p => (k :: p.1, p.2))
        | _ => none
      | none => none
    | _ => some ([], l)

/-- The `path` production: empty, or a first segment (an identifier without a
leading dot, or a bracketed key) followed by further segments; the whole
input must be consumed.  Produces the transformed `Path`
(`PathTransformer.path`, lines 124–126). -/
def parsePathCore (l : List Char) : Option PyPath :=
  match l with
  | [] => some ⟨[]⟩
  | c :: t =>
    if c = '[' then
      match parseKeyCore (t.length + 1) t with
      | some (k, r) =>
        match r with
        | ']' :: r2 =>
          match parseSegsCore (r2.length + 1) r2 with
          | some (ks, r3) => if r3 = [] then some ⟨k :: ks⟩ else none
          | none => none
        | _ => none
      | none => none
    else if isIdStartC c then
      match scanIdent (c :: t) with
      | some (w, r) =>
        match parseSegsCore (r.length + 1) r with
        | some (ks, r2) => if r2 = [] then some ⟨.str (identValue w) :: ks⟩ else none
        | none => none
      | none => none
    else none

/-- `Path.from_str` (lines 65–69): parse and transform, `none` on failure. -/
def parsePath (s : String) : Option PyPath := parsePathCore s.data

/-! ## The grammar as a language

An independent rendering of the Lark grammar (paths.py lines 75–118) as a
language over `List Char`, production by production, used to state that the
parser accepts only grammar strings.  Terminals are the regex languages; the
string terminal's language is that of its lazy regex in token position (close
at the first quote preceded by an even backslash run). -/

/-- The optional leading sign `-?` of the numeric terminals. -/
def SignP (s : List Char) : Prop := s = [] ∨ s = ['-']

/-- A nonempty decimal digit run `\d+`. -/
def DigitsP (ds : List Char) : Prop := ds ≠ [] ∧ ∀ c ∈ ds, isDigitC c

/-- `DEC_NUMBER: -?\d+`. -/
def DecTokP (l : List Char) : Prop := ∃ s ds, SignP s ∧ DigitsP ds ∧ l = s ++ ds

/-- `HEX_NUMBER: -?0x[\da-f]*` (case-insensitive; the digit run may be empty). -/
def HexTokP (l : List Char) : Prop :=
  ∃ s x ds, SignP s ∧ (x = 'x' ∨ x = 'X') ∧ (∀ c ∈ ds, isHexDigitC c)
    ∧ l = s ++ '0' :: x :: ds

/-- `OCT_NUMBER: -?0o[0-7]*` (case-insensitive). -/
def OctTokP (l : List Char) : Prop :=
  ∃ s x ds, SignP s ∧ (x = 'o' ∨ x = 'O') ∧ (∀ c ∈ ds, isOctDigitC c)
    ∧ l = s ++ '0' :: x :: ds

/-- `BIN_NUMBER: -?0b[0-1]*` (case-insensitive). -/
def BinTokP (l : List Char) : Prop :=
  ∃ s x ds, SignP s ∧ (x = 'b' ∨ x = 'B') ∧ (∀ c ∈ ds, isBinDigitC c)
    ∧ l = s ++ '0' :: x :: ds

/-- The mantissa shapes `\d+\.\d*`, `\.\d+` and `\d+` of `FLOAT_NUMBER`. -/
def MantP (m : List Char) : Prop :=
  (∃ d1 d2, DigitsP d1 ∧ (∀ c ∈ d2, isDigitC c) ∧ m = d1 ++ '.' :: d2)
  ∨ (∃ d2, DigitsP d2 ∧ m = '.' :: d2)
  ∨ DigitsP m

/-- The exponent `e[-+]?\d+` (case-insensitive). -/
def ExpP (e : List Char) : Prop :=
  ∃ ec sg ds, (ec = 'e' ∨ ec = 'E') ∧ (sg = [] ∨ sg = ['+'] ∨ sg = ['-'])
    ∧ DigitsP ds ∧ e = ec :: sg ++ ds

/-- `FLOAT_NUMBER`: an optional sign, a mantissa and an optional exponent
(the regex's two top alternatives denote exactly this language). -/
def FloatTokP (l : List Char) : Prop :=
  ∃ s m e, SignP s ∧ MantP m ∧ (e = [] ∨ ExpP e) ∧ l = s ++ m ++ e

/-- `IMAG_NUMBER: (DEC_NUMBER | FLOAT_NUMBER) "j"i`. -/
def ImagTokP (l : List Char) : Prop :=
  ∃ m j, (DecTokP m ∨ FloatTokP m) ∧ (j = 'j' ∨ j = 'J') ∧ l = m ++ [j]

/-- The parenthesised `COMPLEX_NUMBER` alternative
`"(" (FLOAT_NUMBER | DEC_NUMBER) [+-] IMAG_NUMBER ")"`. -/
def CplxTokP (l : List Char) : Prop :=
  ∃ re op im, (FloatTokP re ∨ DecTokP re) ∧ (op = '+' ∨ op = '-') ∧ ImagTokP im
    ∧ l = '(' :: re ++ op :: im ++ [')']

/-- The `number` production: any numeric terminal (`COMPLEX_NUMBER` covers
both its `IMAG_NUMBER` and parenthesised alternatives). -/
def NumTokP (l : List Char) : Prop :=
  DecTokP l ∨ HexTokP l ∨ OctTokP l ∨ BinTokP l ∨ FloatTokP l ∨ ImagTokP l ∨ CplxTokP l

/-- The `integer` alternatives usable inside `slice_key`. -/
def IntTokP (l : List Char) : Prop := DecTokP l ∨ HexTokP l ∨ OctTokP l ∨ BinTokP l

/-- A possibly-absent token (the `[integer]` of `slice_key`). -/
def OptTokP (P : List Char → Prop) (l : List Char) : Prop := l = [] ∨ P l

/-- The two `slice_key` productions. -/
def SliceTokP (l : List Char) : Prop :=
  (∃ a b, OptTokP IntTokP a ∧ OptTokP IntTokP b ∧ l = a ++ ':' :: b)
  ∨ (∃ a b c, OptTokP IntTokP a ∧ OptTokP IntTokP b ∧ OptTokP IntTokP c
      ∧ l = a ++ ':' :: b ++ ':' :: c)

/-- A complete string-literal body for quote `q` under the lazy regex
`".*?(?<!\\)(\\\\)*?"`: scanning left to right (`esc` = parity of the current
backslash run), no newline, every interior `q` escaped, and a final even run
so the closing quote matches. -/
def bodyOkB (q : Char) : Bool → List Char → Bool
  | esc, [] => !esc
  | esc, c :: t =>
    if c = '\n' then false
    else if c = q && !esc then false
    else if c = '\\' then bodyOkB q (!esc) t
    else bodyOkB q false t

/-- The `string` terminal: either quote around a complete lazy-match body. -/
def StrTokP (l : List Char) : Prop :=
  ∃ q w, (q = '\'' ∨ q = '"') ∧ bodyOkB q false w = true ∧ l = q :: w ++ [q]

/-- The `identifier` production `ID_START ID_CONTINUE*`: its language is the
nonempty strings whose head is in the start class and whose characters are all
in the continue class (the start class is contained in the continue class). -/
def IdentTokP (l : List Char) : Prop :=
  ∃ c cs, isIdStartC c = true ∧ (∀ x ∈ cs, isIdContC x = true) ∧ l = c :: cs

mutual
/-- The `key` production. -/
inductive KeyG : List Char → Prop where
  | num {l} : NumTokP l → KeyG l
  | slice {l} : SliceTokP l → KeyG l
  | boolean {l} : l = ['T', 'r', 'u', 'e'] ∨ l = ['F', 'a', 'l', 's', 'e'] → KeyG l
  | noneKw : KeyG ['N', 'o', 'n', 'e']
  | string {l} : StrTokP l → KeyG l
  | tup {l} : TupG l → KeyG l

/-- The `tuple_key` production:
`"()" | "(" key ",)" | "(" key ("," key)+ [","] ")"`. -/
inductive TupG : List Char → Prop where
  | empty : TupG ['(', ')']
  | single {k} : KeyG k → TupG ('(' :: k ++ [',', ')'])
  | multi {k t} : KeyG k → TupRestG t → TupG ('(' :: k ++ t)

/-- The `("," key)+ [","] ")"` part of the multi-element `tuple_key`. -/
inductive TupRestG : List Char → Prop where
  | last {k} : KeyG k → TupRestG (',' :: k ++ [')'])
  | lastC {k} : KeyG k → TupRestG (',' :: k ++ [',', ')'])
  | cons {k t} : KeyG k → TupRestG t → TupRestG (',' :: k ++ t)

/-- Helper chain for the parser's factoring of the tuple tail (the text after
the second and later elements): `")"`, `",)"`, or `"," key` and more. -/
inductive TupEndG : List Char → Prop where
  | close : TupEndG [')']
  | closeC : TupEndG [',', ')']
  | more {k t} : KeyG k → TupEndG t → TupEndG (',' :: k ++ t)
end

/-- A non-initial segment: `"." identifier | "[" key "]"`. -/
inductive SegG : List Char → Prop where
  | dot {s} : IdentTokP s → SegG ('.' :: s)
  | idx {k} : KeyG k → SegG ('[' :: k ++ [']'])

/-- A possibly-empty run of segments. -/
inductive SegsG : List Char → Prop where
  | nil : SegsG []
  | cons {s t} : SegG s → SegsG t → SegsG (s ++ t)

/-- The initial segment: `identifier | "[" key "]"` (no leading dot). -/
inductive FirstG : List Char → Prop where
  | ident {s} : IdentTokP s → FirstG s
  | idx {k} : KeyG k → FirstG ('[' :: k ++ [']'])

/-- The `path` production: empty, or an initial segment and further segments. -/
def PathL (l : List Char) : Prop :=
  l = [] ∨ ∃ f t, FirstG f ∧ SegsG t ∧ l = f ++ t

/-! ## A per-key round-trippable universe

In the program the path-level round trip `parse(to_string(p)) == p` never
holds: `to_string` goes through the `@functools.cache`-wrapped `__repr__`,
which always raises (header note), and `PathTransformer.identifier` keeps
only the leading `ID_START` run of an identifier segment.  What can be said
is key-local: for the keys delimited by these predicates — integers,
booleans, `None`, strings whose `repr` body is their verbatim text
(printable ASCII, no backslash, not both quote characters), and tuples of at
most one such element (`repr` separates longer tuples with `", "`, whose
space the grammar rejects) — the bracketed canonical rendering of the key
parses back to the same key through one `key` production (`parseKey_rt`).
Floats and complex numbers are left out: their canonical text goes through
the host's shortest-round-trip IEEE rendering, which the exact-rational
float model deliberately does not reproduce. -/

/-- Characters that Python's string `repr` keeps verbatim and that cannot
terminate or alter the string-token scan: printable ASCII minus backslash. -/
def safeStrChar (c : Char) : Bool := 32 ≤ c.toNat && c.toNat ≤ 126 && !(c = '\\')

/-- Strings whose `repr` body is the string itself. -/
def safeStr (s : String) : Bool :=
  s.data.all safeStrChar && !(s.data.contains '\'' && s.data.contains '"')

mutual
/-- Keys allowed (recursively) inside a round-trippable tuple. -/
def tupElemRT : PyVal → Bool
  | .int _ => true
  | .bool _ => true
  | .pynone => true
  | .str s => safeStr s
  | .tuple xs => tupElemsRT xs
  | _ => false

/-- Tuples round-trip only with zero or one element (`repr` separates longer
tuples with `", "`, whose space the grammar rejects). -/
def tupElemsRT : PyVals → Bool
  | .nil => true
  | .cons x .nil => tupElemRT x
  | _ => false
end

/-! ## Small statement-support definitions -/

/-- Characters that legitimately follow a key inside the bracket/tuple
syntax: a closing bracket, a comma, or a closing parenthesis. -/
def isStopC (c : Char) : Bool := c = ']' || c = ',' || c = ')'

/-- The continuation after a rendered key is empty or starts at a stop
character. -/
def stopsOk : List Char → Bool
  | [] => true
  | c :: _ => isStopC c

/-- The first `p`-run of `b` is empty. -/
def headNotP (p : Char → Bool) : List Char → Prop
  | [] => True
  | c :: _ => p c = false

/-! # Theorems -/

/-! ### Scanning toolkit -/

theorem takeWhile_append_all {p : Char → Bool} {a b : List Char}
    (ha : ∀ c ∈ a, p c = true) (hb : headNotP p b) :
    (a ++ b).takeWhile p = a ∧ (a ++ b).dropWhile p = b := by
  induction a with
  | nil =>
    simp only [List.nil_append]
    cases b with
    | nil => simp
    | cons c t =>
      simp only [headNotP] at hb
      simp [List.takeWhile_cons, List.dropWhile_cons, hb]
  | cons c a ih =>
    have hc := ha c (by simp)
    have ih2 := ih (fun x hx => ha x (by simp [hx]))
    simp [List.takeWhile_cons, List.dropWhile_cons, hc, ih2.1, ih2.2]

theorem natDecA_fuel : ∀ f g n, n < f → n < g → natDecA f n = natDecA g n := by
  intro f
  induction f with
  | zero => intro g n h; omega
  | succ f ih =>
    intro g n hf hg
    cases g with
    | zero => omega
    | succ g =>
      simp only [natDecA]
      by_cases h : n < 10
      · simp [h]
      · have hd : n / 10 < n := Nat.div_lt_self (by omega) (by omega)
        simp [h, ih g (n / 10) (by omega) (by omega)]

theorem natDec_eq (n : Nat) :
    natDec n = if n < 10 then [digitChar n] else natDec (n / 10) ++ [digitChar (n % 10)] := by
  have h1 : natDec n = if n < 10 then [digitChar n]
      else natDecA n (n / 10) ++ [digitChar (n % 10)] := rfl
  rw [h1]
  by_cases h : n < 10
  · simp [h]
  · have hd : n / 10 < n := Nat.div_lt_self (by omega) (by omega)
    simp only [h, if_false]
    rw [natDecA_fuel n (n / 10 + 1) (n / 10) (by omega) (by omega)]
    rfl

theorem digitChar_digit {n : Nat} (h : n < 10) : isDigitC (digitChar n) = true := by
  interval_cases n <;> decide

theorem digitVal_digitChar {n : Nat} (h : n < 10) : digitVal (digitChar n) = n := by
  interval_cases n <;> decide

theorem digitChar_ne_zero {n : Nat} (h1 : n < 10) (h2 : n ≠ 0) : ¬(digitChar n = '0') := by
  interval_cases n
  · exact absurd rfl h2
  all_goals decide

theorem natDec_digits (n : Nat) : ∀ c ∈ natDec n, isDigitC c = true := by
  induction n using Nat.strong_induction_on with
  | _ n ih =>
    rw [natDec_eq]
    by_cases h : n < 10
    · simpa [h] using digitChar_digit h
    · have hd : n / 10 < n := Nat.div_lt_self (by omega) (by omega)
      simp only [h, if_false]
      intro c hc
      rcases List.mem_append.mp hc with h1 | h1
      · exact ih _ hd c h1
      · simp only [List.mem_singleton] at h1
        subst h1
        exact digitChar_digit (Nat.mod_lt _ (by omega))

theorem natDec_ne_nil (n : Nat) : natDec n ≠ [] := by
  rw [natDec_eq]
  by_cases h : n < 10 <;> simp [h]

theorem natDec_head_ne_zero (n : Nat) (hn : 1 ≤ n) :
    ∀ c, (natDec n).head? = some c → ¬(c = '0') := by
  induction n using Nat.strong_induction_on with
  | _ n ih =>
    rw [natDec_eq]
    by_cases h : n < 10
    · simp only [h, if_true, List.head?]
      intro c hc
      cases hc
      exact digitChar_ne_zero h (by omega)
    · have hd : n / 10 < n := Nat.div_lt_self (by omega) (by omega)
      simp only [h, if_false]
      intro c hc
      rw [List.head?_append_of_ne_nil _ (natDec_ne_nil (n / 10))] at hc
      exact ih _ hd (by omega) c hc

theorem digitsVal_append_last (a : List Char) (c : Char) :
    digitsVal (a ++ [c]) = 10 * digitsVal a + digitVal c := by
  simp [digitsVal, List.foldl_append]

theorem digitsVal_natDec (n : Nat) : digitsVal (natDec n) = n := by
  induction n using Nat.strong_induction_on with
  | _ n ih =>
    rw [natDec_eq]
    by_cases h : n < 10
    · simp [h, digitsVal, digitVal_digitChar h]
    · have hd : n / 10 < n := Nat.div_lt_self (by omega) (by omega)
      simp only [h, if_false]
      rw [digitsVal_append_last, ih _ hd, digitVal_digitChar (Nat.mod_lt _ (by omega))]
      omega

theorem bool_ne_of_classes {p : Char → Bool} {c d : Char} (h : p c = true)
    (hd : p d = false) : ¬(c = d) := fun he => by subst he; rw [h] at hd; cases hd

theorem isStopC_cases {c : Char} (h : isStopC c = true) : c = ']' ∨ c = ',' ∨ c = ')' := by
  simpa [isStopC, Bool.or_eq_true, decide_eq_true_eq, or_assoc] using h

theorem stop_char_props {c : Char} (h : isStopC c = true) :
    isDigitC c = false ∧ ¬(c = '-') ∧ ¬(c = '.') ∧ ¬(c = ':') ∧ ¬(c = 'e') ∧ ¬(c = 'E')
      ∧ ¬(c = 'j') ∧ ¬(c = 'J') ∧ ¬(c = '\n') ∧ ¬(c = '\'') ∧ ¬(c = '"') ∧ ¬(c = '(')
      ∧ ¬(c = 'T') ∧ ¬(c = 'F') ∧ ¬(c = 'N') ∧ isIdContC c = false ∧ ¬(c = '[')
      ∧ ¬(c = '\\') ∧ ¬(c = '0') := by
  rcases isStopC_cases h with rfl | rfl | rfl <;> decide

theorem stopsOk_cases {r : List Char} (h : stopsOk r = true) :
    r = [] ∨ ∃ c t, r = c :: t ∧ isStopC c = true := by
  cases r with
  | nil => exact Or.inl rfl
  | cons c t => exact Or.inr ⟨c, t, rfl, h⟩

theorem stopsOk_headNot_digit {r : List Char} (h : stopsOk r = true) :
    headNotP isDigitC r := by
  rcases stopsOk_cases h with rfl | ⟨c, t, rfl, hc⟩
  · trivial
  · exact (stop_char_props hc).1

theorem decNoLeadingZero_natDec (n : Nat) : decNoLeadingZero (natDec n) = true := by
  rw [natDec_eq]
  by_cases h : n < 10
  · simp [h, decNoLeadingZero]
  · have h1 : 1 ≤ n / 10 := by omega
    obtain ⟨c, t, hct⟩ : ∃ c t, natDec (n / 10) = c :: t := by
      cases hh : natDec (n / 10) with
      | nil => exact absurd hh (natDec_ne_nil _)
      | cons c t => exact ⟨c, t, rfl⟩
    have hc0 : ¬(c = '0') := natDec_head_ne_zero (n / 10) h1 c (by rw [hct]; rfl)
    simp only [h, if_false, hct, List.cons_append]
    cases t with
    | nil => simp [decNoLeadingZero, hc0]
    | cons d u => simp [decNoLeadingZero, hc0]

/-! ### The scanners on canonically rendered input -/

theorem intRepr_cases (n : Int) :
    (0 ≤ n ∧ intRepr n = natDec n.natAbs)
      ∨ (n < 0 ∧ intRepr n = '-' :: natDec n.natAbs) := by
  by_cases h : n < 0
  · exact Or.inr ⟨h, by simp [intRepr, h]⟩
  · exact Or.inl ⟨by omega, by simp [intRepr, h]⟩

theorem natDec_head_digit (a : Nat) :
    ∃ c t, natDec a = c :: t ∧ isDigitC c = true ∧ (∀ x ∈ t, isDigitC x = true) := by
  cases hh : natDec a with
  | nil => exact absurd hh (natDec_ne_nil _)
  | cons c t =>
    have hd := natDec_digits a
    rw [hh] at hd
    exact ⟨c, t, rfl, hd c (by simp), fun x hx => hd x (by simp [hx])⟩

theorem scanIntOpt_neg_eq (t : List Char) :
    scanIntOpt ('-' :: t) =
      (if t.takeWhile isDigitC = [] then (none, '-' :: t)
       else (some (-(digitsVal (t.takeWhile isDigitC) : Int)), t.dropWhile isDigitC)) := by
  rfl

theorem scanIntOpt_cons_ne {c : Char} (t : List Char) (h : ¬(c = '-')) :
    scanIntOpt (c :: t) =
      (if (c :: t).takeWhile isDigitC = [] then (none, c :: t)
       else (some ((digitsVal ((c :: t).takeWhile isDigitC) : Int)),
         (c :: t).dropWhile isDigitC)) := by
  unfold scanIntOpt
  split
  · rename_i t' heq
    injection heq with h1 _
    exact absurd h1 h
  · rfl

theorem scanIntOpt_intRepr (n : Int) {r : List Char} (hr : headNotP isDigitC r) :
    scanIntOpt (intRepr n ++ r) = (some n, r) := by
  obtain ⟨ca, ta, ha, hca, hta⟩ := natDec_head_digit n.natAbs
  have hall : ∀ x ∈ natDec n.natAbs, isDigitC x = true := natDec_digits _
  have htw := takeWhile_append_all (p := isDigitC) hall hr
  rcases intRepr_cases n with ⟨hn, hi⟩ | ⟨hn, hi⟩
  · rw [hi, ha]
    have hne : ¬(ca = '-') := bool_ne_of_classes hca (by decide)
    rw [List.cons_append, scanIntOpt_cons_ne _ hne, ← List.cons_append, ← ha]
    rw [htw.1, htw.2]
    simp only [natDec_ne_nil, if_false]
    rw [digitsVal_natDec]
    have : (n.natAbs : Int) = n := by omega
    rw [this]
  · rw [hi, List.cons_append, scanIntOpt_neg_eq, htw.1, htw.2]
    simp only [natDec_ne_nil, if_false]
    rw [digitsVal_natDec]
    have : -(n.natAbs : Int) = n := by omega
    rw [this]

theorem splitSign_neg (t : List Char) : splitSign ('-' :: t) = (['-'], t) := by
  simp [splitSign]

theorem splitSign_pos {c : Char} (t : List Char) (h : ¬(c = '-')) :
    splitSign (c :: t) = ([], c :: t) := by
  simp [splitSign, h]

theorem scanExp_stop {r : List Char} (hr : stopsOk r = true) :
    scanExp r = ([], r) := by
  rcases stopsOk_cases hr with rfl | ⟨c, t, rfl, hc⟩
  · rfl
  · have h5 := (stop_char_props hc).2.2.2.2
    simp only [scanExp]
    rw [if_neg (by simp [h5.1, h5.2.1])]

theorem scanJ_stop {r : List Char} (hr : stopsOk r = true) :
    scanJ r = ([], r) := by
  rcases stopsOk_cases hr with rfl | ⟨c, t, rfl, hc⟩
  · rfl
  · have h7 := (stop_char_props hc).2.2.2.2.2.2
    simp only [scanJ]
    rw [if_neg (by simp [h7.1, h7.2.1])]

theorem scanDecFloat_natDec (sgn : List Char) (a : Nat) {r : List Char}
    (hr : stopsOk r = true) :
    scanDecFloat sgn (natDec a ++ r) = some (sgn ++ natDec a, r) := by
  have htw := takeWhile_append_all (p := isDigitC) (natDec_digits a) (stopsOk_headNot_digit hr)
  simp only [scanDecFloat]
  rw [htw.1, htw.2]
  split
  · simp [stopsOk, isStopC] at hr
  · rw [if_neg (natDec_ne_nil a)]
    rw [scanExp_stop hr, scanJ_stop hr]
    simp

theorem not_radix_char {x : Char} (hx : isDigitC x = true ∨ isStopC x = true) :
    ¬(x = 'x') ∧ ¬(x = 'X') ∧ ¬(x = 'o') ∧ ¬(x = 'O') ∧ ¬(x = 'b') ∧ ¬(x = 'B') := by
  rcases hx with hx | hx
  · exact ⟨bool_ne_of_classes hx (by decide), bool_ne_of_classes hx (by decide),
      bool_ne_of_classes hx (by decide), bool_ne_of_classes hx (by decide),
      bool_ne_of_classes hx (by decide), bool_ne_of_classes hx (by decide)⟩
  · rcases isStopC_cases hx with rfl | rfl | rfl <;> decide

theorem scanNumDispatch_natDec (sgn : List Char) (a : Nat) {r : List Char}
    (hr : stopsOk r = true) :
    scanNumDispatch sgn (natDec a ++ r) = some (sgn ++ natDec a, r) := by
  obtain ⟨ca, ta, ha, hca, hta⟩ := natDec_head_digit a
  rw [ha, List.cons_append]
  cases hta2 : ta ++ r with
  | nil =>
    have hta0 : ta = [] := by
      cases ta with
      | nil => rfl
      | cons d u => simp at hta2
    have hr0 : r = [] := by
      rw [hta0] at hta2
      simpa using hta2
    subst hta0
    subst hr0
    show scanDecFloat sgn [ca] = some (sgn ++ [ca], [])
    have hthis := scanDecFloat_natDec sgn a (r := []) rfl
    rw [ha] at hthis
    simpa using hthis
  | cons x u =>
    have hx : isDigitC x = true ∨ isStopC x = true := by
      cases ta with
      | nil =>
        simp only [List.nil_append] at hta2
        rcases stopsOk_cases hr with rfl | ⟨c, t, hrr, hc⟩
        · simp at hta2
        · rw [hrr] at hta2
          injection hta2 with h1 _
          exact Or.inr (h1 ▸ hc)
      | cons d u2 =>
        injection hta2 with h1 _
        exact Or.inl (h1 ▸ hta d (by simp))
    have hnr := not_radix_char hx
    show scanNumDispatch sgn (ca :: x :: u) = _
    have hcond1 : (ca = '0' && (x = 'x' || x = 'X')) = false := by
      simp [hnr.1, hnr.2.1]
    have hcond2 : (ca = '0' && (x = 'o' || x = 'O')) = false := by
      simp [hnr.2.2.1, hnr.2.2.2.1]
    have hcond3 : (ca = '0' && (x = 'b' || x = 'B')) = false := by
      simp [hnr.2.2.2.2.1, hnr.2.2.2.2.2]
    show (if (ca = '0' && (x = 'x' || x = 'X')) = true then _
      else if (ca = '0' && (x = 'o' || x = 'O')) = true then _
      else if (ca = '0' && (x = 'b' || x = 'B')) = true then _
      else scanDecFloat sgn (ca :: x :: u)) = _
    rw [if_neg (by simp [hcond1]), if_neg (by simp [hcond2]), if_neg (by simp [hcond3])]
    rw [show ca :: x :: u = natDec a ++ r by rw [ha, List.cons_append, hta2]]
    rw [← ha]
    exact scanDecFloat_natDec sgn a hr

theorem scanNumberTok_intRepr (n : Int) {r : List Char} (hr : stopsOk r = true) :
    scanNumberTok (intRepr n ++ r) = some (intRepr n, r) := by
  obtain ⟨ca, ta, ha, hca, hta⟩ := natDec_head_digit n.natAbs
  rcases intRepr_cases n with ⟨hn, hi⟩ | ⟨hn, hi⟩
  · rw [hi, ha, List.cons_append]
    have hne : ¬(ca = '-') := bool_ne_of_classes hca (by decide)
    unfold scanNumberTok
    rw [splitSign_pos _ hne]
    rw [← List.cons_append, ← ha]
    simpa using scanNumDispatch_natDec [] n.natAbs hr
  · rw [hi, List.cons_append]
    unfold scanNumberTok
    rw [splitSign_neg]
    exact scanNumDispatch_natDec ['-'] n.natAbs hr

theorem dropSignTok_neg (t : List Char) : dropSignTok ('-' :: t) = (true, t) := by
  simp [dropSignTok]

theorem dropSignTok_pos {c : Char} (t : List Char) (h : ¬(c = '-')) :
    dropSignTok (c :: t) = (false, c :: t) := by
  simp [dropSignTok, h]

theorem tokIsImag_digits {b : List Char} (hb : ∀ c ∈ b, isDigitC c = true) :
    tokIsImag b = false := by
  cases hgl : b.getLast? with
  | none => simp [tokIsImag, hgl]
  | some d =>
    have hd : d ∈ b := by
      rcases List.mem_getLast?_eq_getLast (l := b) (x := d) (Option.mem_def.mpr hgl)
        with ⟨hne, heq⟩
      exact heq ▸ List.getLast_mem hne
    have h1 : ¬(d = 'j') := bool_ne_of_classes (hb d hd) (by decide)
    have h2 : ¬(d = 'J') := bool_ne_of_classes (hb d hd) (by decide)
    simp [tokIsImag, hgl, h1, h2]

theorem any_dotexp_digits {b : List Char} (hb : ∀ c ∈ b, isDigitC c = true) :
    (b.any fun c => c = '.' || c = 'e' || c = 'E') = false := by
  rw [List.any_eq_false]
  intro c hc
  have h1 : ¬(c = '.') := bool_ne_of_classes (hb c hc) (by decide)
  have h2 : ¬(c = 'e') := bool_ne_of_classes (hb c hc) (by decide)
  have h3 : ¬(c = 'E') := bool_ne_of_classes (hb c hc) (by decide)
  simp [h1, h2, h3]

theorem plainFromTok_natDec (neg : Bool) (a : Nat) :
    plainFromTok neg (natDec a) = some (.int (applySign neg (a : Int))) := by
  simp only [plainFromTok]
  rw [tokIsImag_digits (natDec_digits a), any_dotexp_digits (natDec_digits a),
    digitsVal_natDec]
  simp [decNoLeadingZero_natDec a]

theorem numRadixDispatch_digits (neg : Bool) {b : List Char}
    (hb : ∀ c ∈ b, isDigitC c = true) :
    numRadixDispatch neg b = plainFromTok neg b := by
  match b with
  | [] => rfl
  | [c] => rfl
  | c :: x :: ds =>
    have hx := not_radix_char (Or.inl (hb x (by simp)))
    show (if (c = '0' && (x = 'x' || x = 'X')) = true then _
      else if (c = '0' && (x = 'o' || x = 'O')) = true then _
      else if (c = '0' && (x = 'b' || x = 'B')) = true then _
      else plainFromTok neg (c :: x :: ds)) = _
    rw [if_neg (by simp [hx.1, hx.2.1]), if_neg (by simp [hx.2.2.1, hx.2.2.2.1]),
      if_neg (by simp [hx.2.2.2.2.1, hx.2.2.2.2.2])]

theorem numFromTok_intRepr (n : Int) : numFromTok (intRepr n) = some (.int n) := by
  obtain ⟨ca, ta, ha, hca, hta⟩ := natDec_head_digit n.natAbs
  rcases intRepr_cases n with ⟨hn, hi⟩ | ⟨hn, hi⟩
  · rw [hi]
    have hne : ¬(ca = '-') := bool_ne_of_classes hca (by decide)
    unfold numFromTok
    rw [show natDec n.natAbs = ca :: ta from ha, dropSignTok_pos _ hne, ← ha]
    rw [numRadixDispatch_digits false (natDec_digits _), plainFromTok_natDec]
    have : applySign false (n.natAbs : Int) = n := by
      simp only [applySign, if_neg Bool.false_ne_true]
      exact Int.natAbs_of_nonneg hn
    rw [this]
  · rw [hi]
    unfold numFromTok
    rw [dropSignTok_neg]
    rw [numRadixDispatch_digits true (natDec_digits _), plainFromTok_natDec]
    have : applySign true (n.natAbs : Int) = n := by
      simp only [applySign, if_pos rfl]
      rw [Int.ofNat_natAbs_of_nonpos (by omega)]
      exact neg_neg n
    rw [this]

theorem scanStrB_safe {q : Char} (hq : q = '\'' ∨ q = '"') {w : List Char}
    (hw : ∀ c ∈ w, safeStrChar c = true ∧ ¬(c = q)) (r : List Char) :
    scanStrB q false (w ++ q :: r) = some (w, r) := by
  have hqn : ¬(q = '\n') := by rcases hq with rfl | rfl <;> decide
  induction w with
  | nil =>
    simp only [List.nil_append, scanStrB]
    rw [if_neg hqn]
    simp
  | cons c w ih =>
    have hc := hw c (by simp)
    have h1 : ¬(c = '\n') := bool_ne_of_classes hc.1 (by decide)
    have h2 : ¬(c = '\\') := bool_ne_of_classes hc.1 (by decide)
    simp only [List.cons_append, scanStrB]
    rw [if_neg h1, if_neg (by simp [hc.2]), if_neg h2]
    have hih := ih (fun x hx => hw x (by simp [hx]))
    rw [show w.append (q :: r) = w ++ q :: r from rfl, hih]
    rfl

theorem scanStrB_splice (q : Char) : ∀ (l : List Char) (esc : Bool) (w r : List Char),
    scanStrB q esc l = some (w, r) → l = w ++ q :: r := by
  intro l
  induction l with
  | nil => intro esc w r h; cases h
  | cons c t ih =>
    intro esc w r h
    simp only [scanStrB] at h
    by_cases h1 : c = '\n'
    · rw [if_pos h1] at h; cases h
    · rw [if_neg h1] at h
      by_cases h2 : (c = q && !esc) = true
      · rw [if_pos h2] at h
        injection h with h3
        injection h3 with h4 h5
        subst h4; subst h5
        have : c = q := by
          rcases Bool.and_eq_true_iff.mp h2 with ⟨hc, _⟩
          simpa using hc
        simp [this]
      · rw [if_neg h2] at h
        by_cases h3 : c = '\\'
        · rw [if_pos h3] at h
          rcases Option.map_eq_some'.mp h with ⟨⟨w', r'⟩, hw', hmap⟩
          have hmap2 : (c :: w', r') = (w, r) := hmap
          have h5 : w = c :: w' := by injection hmap2 with a b; exact a.symm
          have h6 : r = r' := by injection hmap2 with a b; exact b.symm
          rw [h5, h6, ih (!esc) w' r' hw']
          simp
        · rw [if_neg h3] at h
          rcases Option.map_eq_some'.mp h with ⟨⟨w', r'⟩, hw', hmap⟩
          have hmap2 : (c :: w', r') = (w, r) := hmap
          have h5 : w = c :: w' := by injection hmap2 with a b; exact a.symm
          have h6 : r = r' := by injection hmap2 with a b; exact b.symm
          rw [h5, h6, ih false w' r' hw']
          simp

theorem scanIdent_exact {c : Char} {cs r : List Char} (hc : isIdStartC c = true)
    (hcs : ∀ x ∈ cs, isIdContC x = true) (hr : headNotP isIdContC r) :
    scanIdent (c :: (cs ++ r)) = some (c :: cs, r) := by
  have htw := takeWhile_append_all (p := isIdContC) hcs hr
  simp only [scanIdent]
  rw [hc]
  simp [htw.1, htw.2]

/-! ### The parser on canonically rendered keys -/

theorem parseSliceTry_intRepr_none (n : Int) {r : List Char} (hr : stopsOk r = true) :
    parseSliceTry (intRepr n ++ r) = none := by
  simp only [parseSliceTry]
  rw [scanIntOpt_intRepr n (stopsOk_headNot_digit hr)]
  rcases stopsOk_cases hr with rfl | ⟨c, t, rfl, hc⟩
  · rfl
  · have hcol := (stop_char_props hc).2.2.2.1
    split
    · rename_i u heq
      injection heq with h1 _
      exact absurd h1 hcol
    · rfl

theorem tokIsIntOrFloat_intRepr (n : Int) : tokIsIntOrFloat (intRepr n) = true := by
  obtain ⟨ca, ta, ha, hca, hta⟩ := natDec_head_digit n.natAbs
  have himag : tokIsImag (intRepr n) = false := by
    rcases intRepr_cases n with ⟨hn, hi⟩ | ⟨hn, hi⟩
    · rw [hi]; exact tokIsImag_digits (natDec_digits _)
    · rw [hi]
      cases hgl : (('-' :: natDec n.natAbs).getLast?) with
      | none => simp [tokIsImag, hgl]
      | some d =>
        have hd : d ∈ '-' :: natDec n.natAbs := by
          rcases List.mem_getLast?_eq_getLast (Option.mem_def.mpr hgl) with ⟨hne, heq⟩
          exact heq ▸ List.getLast_mem hne
        have hdd : isDigitC d = true ∨ d = '-' := by
          rcases List.mem_cons.mp hd with rfl | hmem
          · exact Or.inr rfl
          · exact Or.inl (natDec_digits _ d hmem)
        have h1 : ¬(d = 'j') := by
          rcases hdd with hdd | rfl
          · exact bool_ne_of_classes hdd (by decide)
          · decide
        have h2 : ¬(d = 'J') := by
          rcases hdd with hdd | rfl
          · exact bool_ne_of_classes hdd (by decide)
          · decide
        simp [tokIsImag, hgl, h1, h2]
  have hbody : (dropSignTok (intRepr n)).2 = natDec n.natAbs := by
    rcases intRepr_cases n with ⟨hn, hi⟩ | ⟨hn, hi⟩
    · rw [hi, ha, dropSignTok_pos _ (bool_ne_of_classes hca (by decide)), ← ha]
    · rw [hi, dropSignTok_neg]
  simp only [tokIsIntOrFloat, himag, Bool.not_false, Bool.and_true]
  rw [hbody, ha]
  cases ta with
  | nil => rfl
  | cons x u =>
    have hx := not_radix_char (Or.inl (hta x (by simp)))
    simp [hx.1, hx.2.1, hx.2.2.1, hx.2.2.2.1, hx.2.2.2.2.1, hx.2.2.2.2.2]

theorem scanNumberTok_none {c : Char} (t : List Char) (h1 : ¬(c = '-'))
    (h2 : isDigitC c = false) (h3 : ¬(c = '.')) : scanNumberTok (c :: t) = none := by
  have h0 : ¬(c = '0') := bool_ne_of_classes (p := fun x => !isDigitC x) (by simp [h2]) (by decide)
  unfold scanNumberTok
  rw [splitSign_pos _ h1]
  have hdec : scanDecFloat [] (c :: t) = none := by
    have htk : (c :: t).takeWhile isDigitC = [] := by simp [List.takeWhile_cons, h2]
    have hdr : (c :: t).dropWhile isDigitC = c :: t := by simp [List.dropWhile_cons, h2]
    simp only [scanDecFloat]
    rw [htk, hdr]
    split
    · rename_i u heq
      injection heq with ha _
      exact absurd ha h3
    · simp
  cases t with
  | nil => exact hdec
  | cons x u =>
    show scanNumDispatch [] (c :: x :: u) = none
    show (if (c = '0' && (x = 'x' || x = 'X')) = true then _
      else if (c = '0' && (x = 'o' || x = 'O')) = true then _
      else if (c = '0' && (x = 'b' || x = 'B')) = true then _
      else scanDecFloat [] (c :: x :: u)) = none
    rw [if_neg (by simp [h0]), if_neg (by simp [h0]), if_neg (by simp [h0])]
    exact hdec

theorem safe_char_spec {c : Char} (h : safeStrChar c = true) :
    32 ≤ c.toNat ∧ c.toNat ≤ 126 ∧ ¬(c = '\\') := by
  simpa [safeStrChar, Bool.and_eq_true, decide_eq_true_eq, and_assoc] using h

theorem strQuote_cases (s : String) : strQuote s = '\'' ∨ strQuote s = '"' := by
  unfold strQuote
  split
  · exact Or.inr rfl
  · exact Or.inl rfl

theorem safeStr_spec {s : String} (hs : safeStr s = true) :
    ∀ c ∈ s.data, safeStrChar c = true ∧ ¬(c = strQuote s) := by
  have h1 : ∀ c ∈ s.data, safeStrChar c = true := by
    have := (Bool.and_eq_true_iff.mp hs).1
    simpa [List.all_eq_true] using this
  intro c hc
  refine ⟨h1 c hc, ?_⟩
  unfold strQuote
  split
  · rename_i hcond
    intro he
    subst he
    have hf := (Bool.and_eq_true_iff.mp hcond).2
    rw [show s.data.contains '"' = true from List.elem_eq_true_of_mem hc] at hf
    simp at hf
  · rename_i hcond
    intro he
    subst he
    have hm : s.data.contains '\'' = true := List.elem_eq_true_of_mem hc
    have hg : s.data.contains '"' = true := by
      cases hgq : s.data.contains '"'
      · exact absurd (by rw [Bool.and_eq_true_iff]; exact ⟨hm, by rw [hgq]; rfl⟩) hcond
      · rfl
    have hf := (Bool.and_eq_true_iff.mp hs).2
    rw [hm, hg] at hf
    simp at hf

theorem flatMap_esc_id {q : Char} {l : List Char}
    (h : ∀ c ∈ l, safeStrChar c = true ∧ ¬(c = q)) :
    l.flatMap (escChar q) = l := by
  induction l with
  | nil => rfl
  | cons c t ih =>
    have hc := h c (by simp)
    have hspec := safe_char_spec hc.1
    have e1 : escChar q c = [c] := by
      unfold escChar
      rw [if_neg hspec.2.2, if_neg hc.2,
        if_neg (bool_ne_of_classes hc.1 (by decide)),
        if_neg (bool_ne_of_classes hc.1 (by decide)),
        if_neg (bool_ne_of_classes hc.1 (by decide)),
        if_neg (by simp; omega)]
    simp only [List.flatMap_cons, e1, List.singleton_append]
    rw [ih (fun x hx => h x (by simp [hx]))]

theorem strReprC_safe {s : String} (hs : safeStr s = true) :
    strReprC s = strQuote s :: (s.data ++ [strQuote s]) := by
  unfold strReprC
  rw [flatMap_esc_id (safeStr_spec hs)]
  rfl

theorem parseKey_str_rt {s : String} (hs : safeStr s = true) (f : Nat) (r : List Char) :
    parseKeyCore (f + 1) (reprC (.str s) ++ r) = some (.str s, r) := by
  have hrepr : reprC (.str s) = strQuote s :: (s.data ++ [strQuote s]) := strReprC_safe hs
  have hq := strQuote_cases s
  rw [show reprC (.str s) = strQuote s :: (s.data ++ [strQuote s]) from hrepr, List.cons_append]
  simp only [parseKeyCore]
  rw [if_pos (by rcases hq with h | h <;> simp [h])]
  rw [show (s.data ++ [strQuote s]) ++ r = s.data ++ strQuote s :: r by simp]
  rw [scanStrB_safe hq (safeStr_spec hs) r]
  rfl

theorem parseKey_bool_rt (b : Bool) (f : Nat) (r : List Char) :
    parseKeyCore (f + 1) (reprC (.bool b) ++ r) = some (.bool b, r) := by
  cases b <;> rfl

theorem parseKey_none_rt (f : Nat) (r : List Char) :
    parseKeyCore (f + 1) (reprC .pynone ++ r) = some (.pynone, r) := rfl

theorem parseKey_int_rt (n : Int) (f : Nat) {r : List Char} (hr : stopsOk r = true) :
    parseKeyCore (f + 1) (reprC (.int n) ++ r) = some (.int n, r) := by
  obtain ⟨ca, ta, ha, hca, hta⟩ := natDec_head_digit n.natAbs
  have hslice := parseSliceTry_intRepr_none n hr
  have hscan := scanNumberTok_intRepr n hr
  have hnum := numFromTok_intRepr n
  have hchain : (match parseSliceTry (intRepr n ++ r) with
      | some res => some res
      | none =>
        match scanNumberTok (intRepr n ++ r) with
        | some (tk, r2) => (numFromTok tk).map (fun v => (v, r2))
        | none => none) = some (PyVal.int n, r) := by
    simp only [hslice, hscan, hnum, Option.map_some']
  rcases intRepr_cases n with ⟨hn, hi⟩ | ⟨hn, hi⟩
  · have hrepr : reprC (.int n) = ca :: ta := by
      rw [show reprC (.int n) = intRepr n from rfl, hi, ha]
    rw [hrepr, List.cons_append]
    simp only [parseKeyCore]
    rw [if_neg (by simp [bool_ne_of_classes hca (show isDigitC '\'' = false by decide),
        bool_ne_of_classes hca (show isDigitC '"' = false by decide)]),
      if_neg (by simp [bool_ne_of_classes hca (show isDigitC '(' = false by decide)]),
      if_neg (by simp [bool_ne_of_classes hca (show isDigitC 'T' = false by decide),
        bool_ne_of_classes hca (show isDigitC 'F' = false by decide),
        bool_ne_of_classes hca (show isDigitC 'N' = false by decide)])]
    rw [← List.cons_append, ← hrepr, show reprC (.int n) = intRepr n from rfl]
    exact hchain
  · have hrepr : reprC (.int n) = '-' :: natDec n.natAbs := by
      rw [show reprC (.int n) = intRepr n from rfl, hi]
    rw [hrepr, List.cons_append]
    simp only [parseKeyCore]
    rw [if_neg (by decide), if_neg (by decide), if_neg (by decide)]
    rw [← List.cons_append, ← hrepr, show reprC (.int n) = intRepr n from rfl]
    exact hchain

theorem parseKeyCore_else {c0 : Char} (t0 : List Char) (f : Nat)
    (h1 : ¬(c0 = '\'')) (h2 : ¬(c0 = '"')) (h3 : ¬(c0 = '(')) (h4 : ¬(c0 = 'T'))
    (h5 : ¬(c0 = 'F')) (h6 : ¬(c0 = 'N')) :
    parseKeyCore (f + 1) (c0 :: t0) =
      (match parseSliceTry (c0 :: t0) with
       | some res => some res
       | none =>
         match scanNumberTok (c0 :: t0) with
         | some (tk, r2) => (numFromTok tk).map (fun v => (v, r2))
         | none => none) := by
  simp only [parseKeyCore]
  rw [if_neg (by simp [h1, h2]), if_neg (by simp [h3]), if_neg (by simp [h4, h5, h6])]

theorem scanNumberTok_rparen (r : List Char) : scanNumberTok (')' :: r) = none := by
  cases r <;> rfl

theorem parseKey_tupnil_rt (f : Nat) (r : List Char) :
    parseKeyCore (f + 1) (reprC (.tuple .nil) ++ r) = some (.tuple .nil, r) := by
  show parseKeyCore (f + 1) ('(' :: ')' :: r) = some (.tuple .nil, r)
  have h := scanNumberTok_rparen r
  simp [parseKeyCore, parseComplexTok, h]

theorem scanIntOpt_stop {r : List Char} (hr : stopsOk r = true) :
    scanIntOpt r = (none, r) := by
  rcases stopsOk_cases hr with rfl | ⟨c, t, rfl, hc⟩
  · rfl
  · have hp := stop_char_props hc
    rw [scanIntOpt_cons_ne _ hp.2.1]
    rw [if_pos (by simp [List.takeWhile_cons, hp.1])]

theorem scanIntOpt_colon (t : List Char) : scanIntOpt (':' :: t) = (none, ':' :: t) := by
  rw [scanIntOpt_cons_ne _ (by decide)]
  rw [if_pos (by simp [List.takeWhile_cons]; rfl)]

/-- The continuation after a rendered slice bound: a colon, or the
end-of-bracket continuation. -/
theorem scanIntOpt_bound (o : Option Int) {tail : List Char}
    (h : tail = [] ∨ (∃ u, tail = ':' :: u) ∨ (∃ c u, tail = c :: u ∧ isStopC c = true)) :
    scanIntOpt (sliceBound o ++ tail) =
      (match o with
       | some n => (some n, tail)
       | none => (none, tail)) := by
  have hnd : headNotP isDigitC tail := by
    rcases h with rfl | ⟨u, rfl⟩ | ⟨c, u, rfl, hc⟩
    · trivial
    · show isDigitC ':' = false
      decide
    · exact (stop_char_props hc).1
  cases o with
  | some n => exact scanIntOpt_intRepr n hnd
  | none =>
    show scanIntOpt tail = (none, tail)
    rcases h with rfl | ⟨u, rfl⟩ | ⟨c, u, rfl, hc⟩
    · rfl
    · exact scanIntOpt_colon u
    · exact scanIntOpt_stop (by simpa [stopsOk] using hc)

theorem stop_ne_colon_cons {r : List Char} (hr : stopsOk r = true) (u : List Char) :
    ¬(r = ':' :: u) := by
  intro h
  rcases stopsOk_cases hr with rfl | ⟨c, t, rfl, hc⟩
  · cases h
  · injection h with h1 _
    exact (stop_char_props hc).2.2.2.1 h1

theorem parseSliceTry_fmt (a b c : Option Int) {r : List Char} (hr : stopsOk r = true) :
    parseSliceTry (sliceFmtC a b c ++ r) = some (.slice a b c, r) := by
  have hnd : headNotP isDigitC r := stopsOk_headNot_digit hr
  have hstop : scanIntOpt r = (none, r) := scanIntOpt_stop hr
  have hndc : ∀ u : List Char, headNotP isDigitC (':' :: u) :=
    fun _ => show isDigitC ':' = false by decide
  cases c with
  | none =>
    cases a with
    | none =>
      cases b with
      | none =>
        have hsh : sliceFmtC none none none ++ r = ':' :: r := by simp [sliceFmtC, sliceBound]
        rw [hsh]
        simp only [parseSliceTry, scanIntOpt_colon, hstop]
        split
        · simp [stopsOk, isStopC] at hr
        · rfl
      | some m =>
        have hsh : sliceFmtC none (some m) none ++ r = ':' :: (intRepr m ++ r) := by
          simp [sliceFmtC, sliceBound]
        rw [hsh]
        simp only [parseSliceTry, scanIntOpt_colon, scanIntOpt_intRepr m hnd]
        split
        · simp [stopsOk, isStopC] at hr
        · rfl
    | some n =>
      cases b with
      | none =>
        have hsh : sliceFmtC (some n) none none ++ r = intRepr n ++ (':' :: r) := by
          simp [sliceFmtC, sliceBound]
        rw [hsh]
        simp only [parseSliceTry, scanIntOpt_intRepr n (hndc r), scanIntOpt_colon, hstop]
        split
        · simp [stopsOk, isStopC] at hr
        · rfl
      | some m =>
        have hsh : sliceFmtC (some n) (some m) none ++ r
            = intRepr n ++ (':' :: (intRepr m ++ r)) := by
          simp [sliceFmtC, sliceBound]
        rw [hsh]
        simp only [parseSliceTry, scanIntOpt_intRepr n (hndc _), scanIntOpt_colon,
          scanIntOpt_intRepr m hnd]
        split
        · simp [stopsOk, isStopC] at hr
        · rfl
  | some k =>
    have h3 : scanIntOpt (intRepr k ++ r) = (some k, r) := scanIntOpt_intRepr k hnd
    cases a with
    | none =>
      cases b with
      | none =>
        have hsh : sliceFmtC none none (some k) ++ r = ':' :: (':' :: (intRepr k ++ r)) := by
          simp [sliceFmtC, sliceBound]
        rw [hsh]
        simp only [parseSliceTry, scanIntOpt_colon, h3]
      | some m =>
        have hsh : sliceFmtC none (some m) (some k) ++ r
            = ':' :: (intRepr m ++ (':' :: (intRepr k ++ r))) := by
          simp [sliceFmtC, sliceBound]
        rw [hsh]
        simp only [parseSliceTry, scanIntOpt_colon, scanIntOpt_intRepr m (hndc _), h3]
    | some n =>
      cases b with
      | none =>
        have hsh : sliceFmtC (some n) none (some k) ++ r
            = intRepr n ++ (':' :: (':' :: (intRepr k ++ r))) := by
          simp [sliceFmtC, sliceBound]
        rw [hsh]
        simp only [parseSliceTry, scanIntOpt_intRepr n (hndc _), scanIntOpt_colon, h3]
      | some m =>
        have hsh : sliceFmtC (some n) (some m) (some k) ++ r
            = intRepr n ++ (':' :: (intRepr m ++ (':' :: (intRepr k ++ r)))) := by
          simp [sliceFmtC, sliceBound]
        rw [hsh]
        simp only [parseSliceTry, scanIntOpt_intRepr n (hndc _), scanIntOpt_colon,
          scanIntOpt_intRepr m (hndc _), h3]

theorem parseKeyCore_else_shape {l : List Char} (f : Nat)
    (h : (∃ n X, l = intRepr n ++ X) ∨ (∃ u, l = ':' :: u)) :
    parseKeyCore (f + 1) l =
      (match parseSliceTry l with
       | some res => some res
       | none =>
         match scanNumberTok l with
         | some (tk, r2) => (numFromTok tk).map (fun v => (v, r2))
         | none => none) := by
  rcases h with ⟨n, X, rfl⟩ | ⟨u, rfl⟩
  · obtain ⟨ca, ta, ha, hca, hta⟩ := natDec_head_digit n.natAbs
    rcases intRepr_cases n with ⟨hn, hi⟩ | ⟨hn, hi⟩
    · rw [hi, ha, List.cons_append]
      rw [parseKeyCore_else _ f (bool_ne_of_classes hca (by decide))
        (bool_ne_of_classes hca (by decide)) (bool_ne_of_classes hca (by decide))
        (bool_ne_of_classes hca (by decide)) (bool_ne_of_classes hca (by decide))
        (bool_ne_of_classes hca (by decide))]
    · rw [hi, List.cons_append]
      rw [parseKeyCore_else _ f (by decide) (by decide) (by decide) (by decide)
        (by decide) (by decide)]
  · exact parseKeyCore_else u f (by decide) (by decide) (by decide) (by decide)
      (by decide) (by decide)

theorem parseKey_sliceKey_rt (a b c : Option Int) (f : Nat) {r : List Char}
    (hr : stopsOk r = true) :
    parseKeyCore (f + 1) (sliceFmtC a b c ++ r) = some (.slice a b c, r) := by
  have hshape : (∃ n X, sliceFmtC a b c ++ r = intRepr n ++ X)
      ∨ (∃ u, sliceFmtC a b c ++ r = ':' :: u) := by
    cases a with
    | none =>
      right
      cases c with
      | none => exact ⟨sliceBound b ++ r, by simp [sliceFmtC, sliceBound]⟩
      | some k =>
        exact ⟨sliceBound b ++ (':' :: (intRepr k ++ r)), by simp [sliceFmtC, sliceBound]⟩
    | some n =>
      left
      cases c with
      | none => exact ⟨n, ':' :: (sliceBound b ++ r), by simp [sliceFmtC, sliceBound]⟩
      | some k =>
        exact ⟨n, ':' :: (sliceBound b ++ (':' :: (intRepr k ++ r))),
          by simp [sliceFmtC, sliceBound]⟩
  rw [parseKeyCore_else_shape f hshape]
  simp only [parseSliceTry_fmt a b c hr]

theorem reprC_shape {x : PyVal} (hx : tupElemRT x = true) :
    ∃ c0 t0, reprC x = c0 :: t0 ∧ ¬(c0 = ')') := by
  cases x with
  | int n =>
    obtain ⟨ca, ta, ha, hca, hta⟩ := natDec_head_digit n.natAbs
    rcases intRepr_cases n with ⟨hn, hi⟩ | ⟨hn, hi⟩
    · exact ⟨ca, ta, by rw [show reprC (.int n) = intRepr n from rfl, hi, ha],
        bool_ne_of_classes hca (by decide)⟩
    · exact ⟨'-', natDec n.natAbs,
        by rw [show reprC (.int n) = intRepr n from rfl, hi], by decide⟩
  | bool b =>
    cases b
    · exact ⟨'F', _, rfl, by decide⟩
    · exact ⟨'T', _, rfl, by decide⟩
  | pynone => exact ⟨'N', _, rfl, by decide⟩
  | str s =>
    refine ⟨strQuote s, _, rfl, ?_⟩
    rcases strQuote_cases s with h | h <;> rw [h] <;> decide
  | tuple xs => exact ⟨'(', _, rfl, by decide⟩
  | float q => simp [tupElemRT] at hx
  | complex a b => simp [tupElemRT] at hx
  | slice a b c => simp [tupElemRT] at hx
  | sliceCls => simp [tupElemRT] at hx
  | list xs => simp [tupElemRT] at hx
  | other t => simp [tupElemRT] at hx

theorem parseComplexTok_fmt_none {x : PyVal} (hx : tupElemRT x = true) (rest : List Char) :
    parseComplexTok ('(' :: (reprC x ++ ',' :: rest)) = none := by
  cases x with
  | int n =>
    show parseComplexTok ('(' :: (intRepr n ++ ',' :: rest)) = none
    simp only [parseComplexTok]
    rw [scanNumberTok_intRepr n (show stopsOk (',' :: rest) = true from rfl)]
    simp [tokIsIntOrFloat_intRepr n]
  | bool b =>
    cases b
    · show parseComplexTok ('(' :: ('F' :: ('a' :: 'l' :: 's' :: 'e' :: ',' :: rest))) = none
      simp only [parseComplexTok]
      rw [scanNumberTok_none _ (by decide) (by decide) (by decide)]
    · show parseComplexTok ('(' :: ('T' :: ('r' :: 'u' :: 'e' :: ',' :: rest))) = none
      simp only [parseComplexTok]
      rw [scanNumberTok_none _ (by decide) (by decide) (by decide)]
  | pynone =>
    show parseComplexTok ('(' :: ('N' :: ('o' :: 'n' :: 'e' :: ',' :: rest))) = none
    simp only [parseComplexTok]
    rw [scanNumberTok_none _ (by decide) (by decide) (by decide)]
  | str s =>
    show parseComplexTok ('(' :: (strQuote s ::
      ((s.data.flatMap (escChar (strQuote s)) ++ [strQuote s]) ++ ',' :: rest))) = none
    simp only [parseComplexTok]
    rcases strQuote_cases s with h | h <;> rw [h] <;>
      rw [scanNumberTok_none _ (by decide) (by decide) (by decide)]
  | tuple xs =>
    show parseComplexTok ('(' :: ('(' ::
      ((reprListC xs ++ (if xs.isSingleton then [',', ')'] else [')'])) ++ ',' :: rest))) = none
    simp only [parseComplexTok]
    rw [scanNumberTok_none _ (by decide) (by decide) (by decide)]
  | float q => simp [tupElemRT] at hx
  | complex a b => simp [tupElemRT] at hx
  | slice a b c => simp [tupElemRT] at hx
  | sliceCls => simp [tupElemRT] at hx
  | list xs => simp [tupElemRT] at hx
  | other t => simp [tupElemRT] at hx

theorem parseKey_rt (fuel : Nat) : ∀ (v : PyVal) (r : List Char), tupElemRT v = true →
    stopsOk r = true → (reprC v ++ r).length < fuel →
    parseKeyCore fuel (reprC v ++ r) = some (v, r) := by
  induction fuel with
  | zero => intro v r _ _ h; exact absurd h (by omega)
  | succ f ih =>
    intro v r hv hr hlen
    cases v with
    | int n => exact parseKey_int_rt n f hr
    | bool b => exact parseKey_bool_rt b f r
    | pynone => exact parseKey_none_rt f r
    | str s => exact parseKey_str_rt (by simpa [tupElemRT] using hv) f r
    | float q => simp [tupElemRT] at hv
    | complex a b => simp [tupElemRT] at hv
    | slice a b c => simp [tupElemRT] at hv
    | sliceCls => simp [tupElemRT] at hv
    | list xs => simp [tupElemRT] at hv
    | other t => simp [tupElemRT] at hv
    | tuple xs =>
      cases xs with
      | nil => exact parseKey_tupnil_rt f r
      | cons x ys =>
        cases ys with
        | cons y zs => simp [tupElemRT, tupElemsRT] at hv
        | nil =>
          have hx : tupElemRT x = true := by simpa [tupElemRT, tupElemsRT] using hv
          have hrepr : reprC (.tuple (.cons x .nil)) = '(' :: (reprC x ++ [',', ')']) := by
            show '(' :: reprListC (.cons x .nil)
              ++ (if PyVals.isSingleton (.cons x .nil) then [',', ')'] else [')']) = _
            simp [reprListC, PyVals.isSingleton]
          rw [hrepr] at hlen ⊢
          rw [List.cons_append, show (reprC x ++ [',', ')']) ++ r
            = reprC x ++ (',' :: ')' :: r) by simp]
          simp only [parseKeyCore]
          rw [if_neg (by decide), if_pos (by decide)]
          simp only [parseComplexTok_fmt_none hx (')' :: r)]
          obtain ⟨c0, t0, hx0, hc0⟩ := reprC_shape hx
          have hih : parseKeyCore f (reprC x ++ (',' :: ')' :: r)) = some (x, ',' :: ')' :: r) := by
            apply ih x (',' :: ')' :: r) hx rfl
            simp only [List.length_append, List.length_cons] at hlen ⊢
            omega
          rw [hx0, List.cons_append]
          split
          · rename_i r2 heq
            injection heq with h1 _
            exact absurd h1 hc0
          · rw [← List.cons_append, ← hx0, hih]
            cases f with
            | zero =>
              exfalso
              simp only [List.length_append, List.length_cons] at hlen
              omega
            | succ f2 => rfl

/-! ### The canonical formatter -/

theorem isIdentB_spec {s : String} (h : isIdentB s = true) :
    ∃ c cs, s.data = c :: cs ∧ isIdStartC c = true ∧ ∀ x ∈ cs, isIdContC x = true := by
  cases hd : s.data with
  | nil => rw [isIdentB, hd] at h; cases h
  | cons c cs =>
    rw [isIdentB, hd] at h
    rcases Bool.and_eq_true_iff.mp h with ⟨h1, h2⟩
    exact ⟨c, cs, rfl, h1, by simpa [List.all_eq_true] using h2⟩

theorem formatPartC_head (w : PyVal) :
    (∃ s, w = .str s ∧ isIdentB s = true ∧ formatPartC w = '.' :: s.data)
      ∨ (∃ t, formatPartC w = '[' :: t) := by
  cases w with
  | str s =>
    by_cases hid : isIdentB s = true
    · exact Or.inl ⟨s, rfl, hid, by simp [formatPartC, hid]⟩
    · exact Or.inr ⟨strReprC s ++ [']'], by simp [formatPartC, hid]⟩
  | slice a b c => exact Or.inr ⟨_, rfl⟩
  | int n => exact Or.inr ⟨_, rfl⟩
  | bool b => exact Or.inr ⟨_, rfl⟩
  | float q => exact Or.inr ⟨_, rfl⟩
  | complex a b => exact Or.inr ⟨_, rfl⟩
  | pynone => exact Or.inr ⟨_, rfl⟩
  | sliceCls => exact Or.inr ⟨_, rfl⟩
  | tuple xs => exact Or.inr ⟨_, rfl⟩
  | list xs => exact Or.inr ⟨_, rfl⟩
  | other t => exact Or.inr ⟨_, rfl⟩

/-! ### Equality and hashing -/

mutual
theorem pyEq_refl : ∀ (v : PyVal), pyEq v v = true
  | .int n => by simp [pyEq, numVal]
  | .bool b => by simp [pyEq, numVal]
  | .float q => by simp [pyEq, numVal]
  | .complex a b => by simp [pyEq, numVal]
  | .str s => by simp [pyEq]
  | .pynone => rfl
  | .slice a b c => by simp [pyEq]
  | .sliceCls => rfl
  | .tuple xs => by simp [pyEq, pyEqList_refl xs]
  | .list xs => by simp [pyEq, pyEqList_refl xs]
  | .other t => by simp [pyEq]

theorem pyEqList_refl : ∀ (xs : PyVals), pyEqList xs xs = true
  | .nil => rfl
  | .cons x xs => by simp [pyEqList, pyEq_refl x, pyEqList_refl xs]
end

mutual
theorem pyEq_hash : ∀ (v w : PyVal), pyEq v w = true → pyHash v = pyHash w
  | .tuple xs, w, h => by
    cases w with
    | tuple ys =>
      have h2 : pyEqList xs ys = true := by simpa [pyEq] using h
      have e := pyEqList_hash xs ys h2
      simp [pyHash, e]
    | int n => simp [pyEq, numVal] at h
    | bool b => simp [pyEq, numVal] at h
    | float q => simp [pyEq, numVal] at h
    | complex a b => simp [pyEq, numVal] at h
    | str s => simp [pyEq, numVal] at h
    | pynone => simp [pyEq, numVal] at h
    | slice a b c => simp [pyEq, numVal] at h
    | sliceCls => simp [pyEq, numVal] at h
    | list ys => simp [pyEq, numVal] at h
    | other t => simp [pyEq, numVal] at h
  | .list xs, w, h => by
    cases w with
    | list ys => simp [pyHash]
    | int n => simp [pyEq, numVal] at h
    | bool b => simp [pyEq, numVal] at h
    | float q => simp [pyEq, numVal] at h
    | complex a b => simp [pyEq, numVal] at h
    | str s => simp [pyEq, numVal] at h
    | pynone => simp [pyEq, numVal] at h
    | slice a b c => simp [pyEq, numVal] at h
    | sliceCls => simp [pyEq, numVal] at h
    | tuple ys => simp [pyEq, numVal] at h
    | other t => simp [pyEq, numVal] at h
  | .int n, w, h => by cases w <;> simp_all [pyEq, pyHash, numVal]
  | .bool b, w, h => by
    cases w <;>
      (simp_all [pyEq, pyHash, numVal]
       try (obtain ⟨h1, h2⟩ := h; rw [← h2]; exact h1))
  | .float q, w, h => by cases w <;> simp_all [pyEq, pyHash, numVal]
  | .complex a b, w, h => by cases w <;> simp_all [pyEq, pyHash, numVal]
  | .str s, w, h => by cases w <;> simp_all [pyEq, pyHash, numVal]
  | .pynone, w, h => by cases w <;> simp_all [pyEq, pyHash, numVal]
  | .slice a b c, w, h => by cases w <;> simp_all [pyEq, pyHash, numVal]
  | .sliceCls, w, h => by cases w <;> simp_all [pyEq, pyHash, numVal]
  | .other t, w, h => by cases w <;> simp_all [pyEq, pyHash, numVal]

theorem pyEqList_hash : ∀ (xs ys : PyVals), pyEqList xs ys = true →
    pyHashList xs = pyHashList ys
  | .nil, .nil, _ => rfl
  | .nil, .cons y ys, h => by simp [pyEqList] at h
  | .cons x xs, .nil, h => by simp [pyEqList] at h
  | .cons x xs, .cons y ys, h => by
    obtain ⟨h1, h2⟩ := Bool.and_eq_true_iff.mp (by simpa [pyEqList] using h)
    have e1 := pyEq_hash x y h1
    have e2 := pyEqList_hash xs ys h2
    simp [pyHashList, e1, e2]
end

theorem pyEq_hashable (v w : PyVal) (h : pyEq v w = true) :
    pyHash (hashablePart v) = pyHash (hashablePart w) := by
  by_cases hvs : ∃ a b c, v = PyVal.slice a b c
  · obtain ⟨a, b, c, rfl⟩ := hvs
    by_cases hws : ∃ d e f, w = PyVal.slice d e f
    · obtain ⟨d, e, f, rfl⟩ := hws
      have h2 : a = d ∧ b = e ∧ c = f := by
        simpa [pyEq, Bool.and_eq_true_iff, and_assoc] using h
      obtain ⟨rfl, rfl, rfl⟩ := h2
      rfl
    · have hfalse : pyEq (PyVal.slice a b c) w = false := by
        cases w with
        | slice d e f => exact absurd ⟨d, e, f, rfl⟩ hws
        | _ => rfl
      rw [hfalse] at h
      cases h
  · by_cases hws : ∃ d e f, w = PyVal.slice d e f
    · obtain ⟨d, e, f, rfl⟩ := hws
      have hfalse : pyEq v (PyVal.slice d e f) = false := by
        cases v with
        | slice a b c => exact absurd ⟨a, b, c, rfl⟩ hvs
        | _ => rfl
      rw [hfalse] at h
      cases h
    · have hv2 : hashablePart v = v := by
        cases v with
        | slice a b c => exact absurd ⟨a, b, c, rfl⟩ hvs
        | _ => rfl
      have hw2 : hashablePart w = w := by
        cases w with
        | slice d e f => exact absurd ⟨d, e, f, rfl⟩ hws
        | _ => rfl
      rw [hv2, hw2]
      exact pyEq_hash v w h

theorem partsEq_hashList : ∀ (ps qs : List PyVal), partsEq ps qs = true →
    pyHashList (PyVals.ofList (ps.map hashablePart))
      = pyHashList (PyVals.ofList (qs.map hashablePart))
  | [], [], _ => rfl
  | [], _ :: _, h => by simp [partsEq] at h
  | _ :: _, [], h => by simp [partsEq] at h
  | p :: ps, q :: qs, h => by
    obtain ⟨h1, h2⟩ := Bool.and_eq_true_iff.mp (by simpa [partsEq] using h)
    have e1 := pyEq_hashable p q h1
    have e2 := partsEq_hashList ps qs h2
    simp only [List.map_cons, PyVals.ofList, pyHashList, e1, e2]

theorem pathEq_hash {p q : PyPath} (h : pathEqB p q = true) : pathHash p = pathHash q := by
  unfold pathHash
  have := partsEq_hashList p.parts q.parts h
  simp [pyHash, this]

theorem partsEq_iff_forall2 : ∀ (xs ys : List PyVal),
    partsEq xs ys = true ↔ List.Forall₂ (fun a b => pyEq a b = true) xs ys
  | [], [] => by simp [partsEq]
  | [], _ :: _ => by
    simp only [partsEq, Bool.false_eq_true, false_iff]
    intro h
    cases h
  | _ :: _, [] => by
    simp only [partsEq, Bool.false_eq_true, false_iff]
    intro h
    cases h
  | x :: xs, y :: ys => by
    rw [show partsEq (x :: xs) (y :: ys) = (pyEq x y && partsEq xs ys) from rfl,
      Bool.and_eq_true_iff, partsEq_iff_forall2 xs ys]
    constructor
    · exact fun ⟨h1, h2⟩ => List.Forall₂.cons h1 h2
    · intro h
      cases h with
      | cons h1 h2 => exact ⟨h1, h2⟩

theorem partsEq_refl (xs : List PyVal) : partsEq xs xs = true := by
  induction xs with
  | nil => rfl
  | cons x t ih => simp [partsEq, pyEq_refl x, ih]

/-! ### Constructor validation and the error message -/

theorem validParts_all : ∀ (ks : List PyVal),
    isValidParts (PyVals.ofList ks) = ks.all isValidPart
  | [] => rfl
  | x :: ks => by
    simp only [PyVals.ofList, isValidParts, List.all_cons, validParts_all ks]

theorem reprList_mem_sub : ∀ (ks : List PyVal) (v : PyVal), v ∈ ks →
    reprC v <:+: reprListC (PyVals.ofList ks)
  | [], v, h => absurd h (List.not_mem_nil v)
  | [x], v, h => by
    have hx : v = x := by simpa using h
    subst hx
    exact List.infix_refl _
  | x :: y :: rest, v, h => by
    have hrl : reprListC (PyVals.ofList (x :: y :: rest))
        = reprC x ++ ',' :: ' ' :: reprListC (PyVals.ofList (y :: rest)) := rfl
    rw [hrl]
    rcases List.mem_cons.mp h with h1 | h2
    · subst h1
      exact ⟨[], ',' :: ' ' :: reprListC (PyVals.ofList (y :: rest)), by simp⟩
    · obtain ⟨s, t, hst⟩ := reprList_mem_sub (y :: rest) v h2
      exact ⟨reprC x ++ ',' :: ' ' :: s, t, by rw [← hst]; simp⟩

theorem construct_error_mem_sub (ks : List PyVal)
    (hv : isValidParts (PyVals.ofList ks) = false) :
    construct ks
      = .error ("invalid part(s) " ++ String.mk (reprC (.tuple (PyVals.ofList ks))))
    ∧ ∀ v ∈ ks,
      reprC v
        <:+: ("invalid part(s) "
                ++ String.mk (reprC (.tuple (PyVals.ofList ks)))).data := by
  constructor
  · unfold construct
    rw [show isValidPart (.tuple (PyVals.ofList ks)) = false from hv]
    simp
  · intro v hvks
    have h1 : reprListC (PyVals.ofList ks)
        <:+: ("invalid part(s) "
                ++ String.mk (reprC (.tuple (PyVals.ofList ks)))).data := by
      refine ⟨"invalid part(s) ".data ++ ['('],
        (if (PyVals.ofList ks).isSingleton then [',', ')'] else [')']), ?_⟩
      rw [String.data_append]
      show _ = "invalid part(s) ".data ++ reprC (.tuple (PyVals.ofList ks))
      rw [show reprC (.tuple (PyVals.ofList ks))
            = '(' :: reprListC (PyVals.ofList ks)
                ++ (if (PyVals.ofList ks).isSingleton then [',', ')'] else [')'])
          from rfl]
      simp
    exact (reprList_mem_sub ks v hvks).trans h1

theorem construct_ok_iff (ks : List PyVal) :
    construct ks = .ok ⟨ks⟩ ↔ ks.all isValidPart = true := by
  constructor
  · intro h
    by_contra hbad
    have hfalse : isValidParts (PyVals.ofList ks) = false := by
      rw [validParts_all]
      exact Bool.eq_false_iff.mpr hbad
    rw [(construct_error_mem_sub ks hfalse).1] at h
    cases h
  · intro h
    unfold construct
    rw [show isValidPart (.tuple (PyVals.ofList ks))
          = isValidParts (PyVals.ofList ks) from rfl, validParts_all, h]
    rfl


/-! ### Parser soundness: helper facts about token endings -/

theorem digit_not_j {c : Char} (h : isDigitC c = true) : ¬(c = 'j' ∨ c = 'J') := by
  rintro (rfl | rfl) <;> exact absurd h (by decide)

theorem hex_not_j {c : Char} (h : isHexDigitC c = true) : ¬(c = 'j' ∨ c = 'J') := by
  rintro (rfl | rfl) <;> exact absurd h (by decide)

theorem oct_not_j {c : Char} (h : isOctDigitC c = true) : ¬(c = 'j' ∨ c = 'J') := by
  rintro (rfl | rfl) <;> exact absurd h (by decide)

theorem bin_not_j {c : Char} (h : isBinDigitC c = true) : ¬(c = 'j' ∨ c = 'J') := by
  rintro (rfl | rfl) <;> exact absurd h (by decide)

theorem tokIsImag_true {tk : List Char} (h : tokIsImag tk = true) :
    ∃ c, tk.getLast? = some c ∧ (c = 'j' ∨ c = 'J') := by
  unfold tokIsImag at h
  cases hl : tk.getLast? with
  | none => rw [hl] at h; cases h
  | some c =>
    rw [hl] at h
    exact ⟨c, rfl, by simpa using h⟩

theorem tokIsImag_notj {tk : List Char}
    (h : ∀ c, tk.getLast? = some c → ¬(c = 'j' ∨ c = 'J')) : tokIsImag tk = false := by
  cases ht : tokIsImag tk with
  | false => rfl
  | true =>
    obtain ⟨c, hc, hj⟩ := tokIsImag_true ht
    exact absurd hj (h c hc)

theorem getLast_append_mem (pre : List Char) {ds : List Char} (hne : ds ≠ []) :
    ∃ c, (pre ++ ds).getLast? = some c ∧ c ∈ ds := by
  refine ⟨ds.getLast hne, ?_, List.getLast_mem hne⟩
  rw [List.getLast?_append_of_ne_nil pre hne]
  exact List.getLast?_eq_getLast ds hne

/-! ### Soundness of the token scanners -/

theorem scanStrB_body (q : Char) : ∀ (l : List Char) (esc : Bool) (w r : List Char),
    scanStrB q esc l = some (w, r) → bodyOkB q esc w = true := by
  intro l
  induction l with
  | nil => intro esc w r h; cases h
  | cons c t ih =>
    intro esc w r h
    simp only [scanStrB] at h
    by_cases h1 : c = '\n'
    · rw [if_pos h1] at h; cases h
    · rw [if_neg h1] at h
      by_cases h2 : (c = q && !esc) = true
      · rw [if_pos h2] at h
        injection h with h3
        injection h3 with h4 h5
        subst h4
        rcases Bool.and_eq_true_iff.mp h2 with ⟨_, hesc⟩
        simp only [bodyOkB]
        simpa using hesc
      · rw [if_neg h2] at h
        by_cases h3 : c = '\\'
        · rw [if_pos h3] at h
          rcases Option.map_eq_some'.mp h with ⟨⟨w', r'⟩, hw', hmap⟩
          have hmap2 : (c :: w', r') = (w, r) := hmap
          have h5 : w = c :: w' := by injection hmap2 with a b; exact a.symm
          subst h5
          simp only [bodyOkB, if_neg h1, if_neg h2, if_pos h3]
          exact ih (!esc) w' r' hw'
        · rw [if_neg h3] at h
          rcases Option.map_eq_some'.mp h with ⟨⟨w', r'⟩, hw', hmap⟩
          have hmap2 : (c :: w', r') = (w, r) := hmap
          have h5 : w = c :: w' := by injection hmap2 with a b; exact a.symm
          subst h5
          simp only [bodyOkB, if_neg h1, if_neg h2, if_neg h3]
          exact ih false w' r' hw'

theorem scanIdent_sound {l w r : List Char} (h : scanIdent l = some (w, r)) :
    IdentTokP w ∧ l = w ++ r := by
  cases l with
  | nil => cases h
  | cons c t =>
    rw [scanIdent] at h
    by_cases hc : isIdStartC c = true
    · rw [if_pos hc] at h
      injection h with h2
      injection h2 with hw hr
      subst hw
      subst hr
      refine ⟨⟨c, t.takeWhile isIdContC, hc,
        fun x hx => List.mem_takeWhile_imp hx, rfl⟩, ?_⟩
      simp [List.takeWhile_append_dropWhile]
    · rw [if_neg hc] at h
      cases h

theorem scanIntOpt_sound : ∀ {l : List Char} {ob : Option Int} {r : List Char},
    scanIntOpt l = (ob, r) → ∃ a, OptTokP IntTokP a ∧ l = a ++ r := by
  intro l ob r h
  cases l with
  | nil =>
    have h2 : ((none : Option Int), ([] : List Char)) = (ob, r) := h
    injection h2 with _ hr
    exact ⟨[], Or.inl rfl, by rw [← hr]; rfl⟩
  | cons c t =>
    by_cases hc : c = '-'
    · subst hc
      have h2 : (if t.takeWhile isDigitC = [] then ((none : Option Int), '-' :: t)
          else (some (-(digitsVal (t.takeWhile isDigitC) : Int)),
            t.dropWhile isDigitC)) = (ob, r) := h
      by_cases hds : t.takeWhile isDigitC = []
      · rw [if_pos hds] at h2
        injection h2 with _ hr
        exact ⟨[], Or.inl rfl, by rw [← hr]; rfl⟩
      · rw [if_neg hds] at h2
        injection h2 with _ hr
        refine ⟨'-' :: t.takeWhile isDigitC, Or.inr (Or.inl ⟨['-'], t.takeWhile isDigitC,
          Or.inr rfl, ⟨hds, fun c hc => List.mem_takeWhile_imp hc⟩, rfl⟩), ?_⟩
        rw [← hr]
        simp [List.takeWhile_append_dropWhile]
    · rw [scanIntOpt_cons_ne t hc] at h
      by_cases hds : (c :: t).takeWhile isDigitC = []
      · rw [if_pos hds] at h
        injection h with _ hr
        exact ⟨[], Or.inl rfl, by rw [← hr]; rfl⟩
      · rw [if_neg hds] at h
        injection h with _ hr
        refine ⟨(c :: t).takeWhile isDigitC, Or.inr (Or.inl ⟨[], (c :: t).takeWhile isDigitC,
          Or.inl rfl, ⟨hds, fun x hx => List.mem_takeWhile_imp hx⟩, by rfl⟩), ?_⟩
        rw [← hr]
        simp [List.takeWhile_append_dropWhile]

theorem scanExp_sound : ∀ (r : List Char) {e rest : List Char}, scanExp r = (e, rest) →
    (e = [] ∧ rest = r) ∨ (ExpP e ∧ r = e ++ rest) := by
  intro r e rest h
  cases r with
  | nil =>
    have h2 : (([] : List Char), ([] : List Char)) = (e, rest) := h
    injection h2 with he hr
    exact Or.inl ⟨he.symm, hr.symm⟩
  | cons e0 r0 =>
    cases r0 with
    | nil =>
      have h2 : (if e0 = 'e' || e0 = 'E' then (([] : List Char), [e0])
          else (([] : List Char), [e0])) = (e, rest) := h
      by_cases he : (e0 = 'e' || e0 = 'E') = true
      · rw [if_pos he] at h2
        injection h2 with h3 h4
        exact Or.inl ⟨h3.symm, h4.symm⟩
      · rw [if_neg he] at h2
        injection h2 with h3 h4
        exact Or.inl ⟨h3.symm, h4.symm⟩
    | cons s r2 =>
      have h2 : (if e0 = 'e' || e0 = 'E' then
          (if s = '+' || s = '-' then
            (if r2.takeWhile isDigitC = [] then (([] : List Char), e0 :: s :: r2)
             else (e0 :: s :: r2.takeWhile isDigitC, r2.dropWhile isDigitC))
           else
            (if (s :: r2).takeWhile isDigitC = [] then (([] : List Char), e0 :: s :: r2)
             else (e0 :: (s :: r2).takeWhile isDigitC, (s :: r2).dropWhile isDigitC)))
          else (([] : List Char), e0 :: s :: r2)) = (e, rest) := h
      by_cases he : (e0 = 'e' || e0 = 'E') = true
      · rw [if_pos he] at h2
        have heP : e0 = 'e' ∨ e0 = 'E' := by simpa using he
        by_cases hs : (s = '+' || s = '-') = true
        · rw [if_pos hs] at h2
          have hsP : s = '+' ∨ s = '-' := by simpa using hs
          by_cases hds : r2.takeWhile isDigitC = []
          · rw [if_pos hds] at h2
            injection h2 with h3 h4
            exact Or.inl ⟨h3.symm, h4.symm⟩
          · rw [if_neg hds] at h2
            injection h2 with h3 h4
            subst h3
            subst h4
            refine Or.inr ⟨⟨e0, [s], r2.takeWhile isDigitC, heP,
              (by rcases hsP with rfl | rfl
                  · exact Or.inr (Or.inl rfl)
                  · exact Or.inr (Or.inr rfl)),
              ⟨hds, fun c hc => List.mem_takeWhile_imp hc⟩, rfl⟩, ?_⟩
            simp [List.takeWhile_append_dropWhile]
        · rw [if_neg hs] at h2
          by_cases hds : (s :: r2).takeWhile isDigitC = []
          · rw [if_pos hds] at h2
            injection h2 with h3 h4
            exact Or.inl ⟨h3.symm, h4.symm⟩
          · rw [if_neg hds] at h2
            injection h2 with h3 h4
            subst h3
            subst h4
            refine Or.inr ⟨⟨e0, [], (s :: r2).takeWhile isDigitC, heP, Or.inl rfl,
              ⟨hds, fun c hc => List.mem_takeWhile_imp hc⟩, rfl⟩, ?_⟩
            simp [List.takeWhile_append_dropWhile]
      · rw [if_neg he] at h2
        injection h2 with h3 h4
        exact Or.inl ⟨h3.symm, h4.symm⟩

theorem scanJ_sound : ∀ (r : List Char) {j rest : List Char}, scanJ r = (j, rest) →
    (j = [] ∧ rest = r) ∨ (∃ c, (c = 'j' ∨ c = 'J') ∧ j = [c] ∧ r = c :: rest) := by
  intro r j rest h
  cases r with
  | nil =>
    have h2 : (([] : List Char), ([] : List Char)) = (j, rest) := h
    injection h2 with hj hr
    exact Or.inl ⟨hj.symm, hr.symm⟩
  | cons c t =>
    have h2 : (if c = 'j' || c = 'J' then ([c], t)
        else (([] : List Char), c :: t)) = (j, rest) := h
    by_cases hc : (c = 'j' || c = 'J') = true
    · rw [if_pos hc] at h2
      injection h2 with h3 h4
      subst h3
      subst h4
      exact Or.inr ⟨c, by simpa using hc, rfl, rfl⟩
    · rw [if_neg hc] at h2
      injection h2 with h3 h4
      exact Or.inl ⟨h3.symm, h4.symm⟩

theorem tokIsImag_pre_run (pre ds : List Char) {tk : List Char} {p : Char → Bool}
    (hshape : tk = pre ++ ds) (hne : ds ≠ []) (hall : ∀ c ∈ ds, p c = true)
    (hp : ∀ c, p c = true → ¬(c = 'j' ∨ c = 'J')) : tokIsImag tk = false := by
  subst hshape
  apply tokIsImag_notj
  intro c hc
  obtain ⟨cl, hcl, hmem⟩ := getLast_append_mem pre hne
  rw [hcl] at hc
  injection hc with hc2
  subst hc2
  exact hp _ (hall _ hmem)

theorem tokIsImag_pre_char (pre : List Char) (x : Char) {tk : List Char}
    (hshape : tk = pre ++ [x])
    (hx : ¬(x = 'j' ∨ x = 'J')) : tokIsImag tk = false := by
  subst hshape
  apply tokIsImag_notj
  intro c hc
  rw [List.getLast?_concat] at hc
  injection hc with hc2
  subst hc2
  exact hx

theorem tokIsImag_concat_true (pre : List Char) {tk : List Char} {x : Char}
    (hshape : tk = pre ++ [x])
    (hx : x = 'j' ∨ x = 'J') : tokIsImag tk = true := by
  subst hshape
  unfold tokIsImag
  rw [List.getLast?_concat]
  rcases hx with rfl | rfl <;> rfl

theorem scanDecFloat_sound {sgn l1 tk r : List Char} (hs : SignP sgn)
    (h : scanDecFloat sgn l1 = some (tk, r)) :
    sgn ++ l1 = tk ++ r
    ∧ (tokIsImag tk = true → ImagTokP tk)
    ∧ (tokIsImag tk = false → DecTokP tk ∨ FloatTokP tk) := by
  have hdig1 : ∀ c ∈ l1.takeWhile isDigitC, isDigitC c = true :=
    fun c hc => List.mem_takeWhile_imp hc
  simp only [scanDecFloat] at h
  split at h
  · rename_i t heq
    have hdig2 : ∀ c ∈ t.takeWhile isDigitC, isDigitC c = true :=
      fun c hc => List.mem_takeWhile_imp hc
    split at h
    · cases h
    · rename_i hcond
      have hnot : ¬(l1.takeWhile isDigitC = [] ∧ t.takeWhile isDigitC = []) := by
        simpa using hcond
      have hl1 : l1 = l1.takeWhile isDigitC ++ '.' :: t := by
        conv_lhs => rw [← List.takeWhile_append_dropWhile isDigitC l1]
        rw [heq]
      have ht : t = t.takeWhile isDigitC ++ t.dropWhile isDigitC :=
        (List.takeWhile_append_dropWhile isDigitC t).symm
      have hm : MantP (l1.takeWhile isDigitC ++ '.' :: t.takeWhile isDigitC) := by
        by_cases hd1 : l1.takeWhile isDigitC = []
        · refine Or.inr (Or.inl ⟨t.takeWhile isDigitC,
            ⟨fun hh => hnot ⟨hd1, hh⟩, hdig2⟩, ?_⟩)
          rw [hd1]
          rfl
        · exact Or.inl ⟨l1.takeWhile isDigitC, t.takeWhile isDigitC,
            ⟨hd1, hdig1⟩, hdig2, rfl⟩
      rcases hE : scanExp (t.dropWhile isDigitC) with ⟨e1, e2⟩
      rw [hE] at h
      dsimp only [] at h
      rcases hJ : scanJ e2 with ⟨j1, j2⟩
      rw [hJ] at h
      dsimp only [] at h
      injection h with h2
      injection h2 with htk hr
      subst htk
      subst hr
      have hEs := scanExp_sound _ hE
      have hJs := scanJ_sound _ hJ
      have hr2 : t.dropWhile isDigitC = e1 ++ e2 := by
        rcases hEs with ⟨rfl, rfl⟩ | ⟨_, hsp⟩
        · rfl
        · exact hsp
      have he2 : e2 = j1 ++ j2 := by
        rcases hJs with ⟨rfl, rfl⟩ | ⟨c, _, rfl, hsp⟩
        · rfl
        · rw [hsp]
          rfl
      have heD : e1 = [] ∨ ExpP e1 := by
        rcases hEs with ⟨rfl, _⟩ | ⟨hx, _⟩
        · exact Or.inl rfl
        · exact Or.inr hx
      have hFl : FloatTokP (sgn ++ l1.takeWhile isDigitC ++
          '.' :: t.takeWhile isDigitC ++ e1) := by
        refine ⟨sgn, l1.takeWhile isDigitC ++ '.' :: t.takeWhile isDigitC, e1,
          hs, hm, heD, by simp⟩
      have heq0 : sgn ++ l1 = (sgn ++ l1.takeWhile isDigitC ++
          '.' :: t.takeWhile isDigitC ++ e1 ++ j1) ++ j2 := by
        conv_lhs => rw [hl1, ht, hr2, he2]
        simp
      rcases hJs with ⟨hj1, _⟩ | ⟨c, hc, hj1, _⟩
      · subst hj1
        have hni : tokIsImag (sgn ++ l1.takeWhile isDigitC ++
            '.' :: t.takeWhile isDigitC ++ e1 ++ ([] : List Char)) = false := by
          rcases heD with rfl | ⟨ec, sg, ds, hec, hsg, hds, rfl⟩
          · by_cases hd2 : t.takeWhile isDigitC = []
            · refine tokIsImag_pre_char (sgn ++ l1.takeWhile isDigitC)
                '.' ?_ (by decide)
              rw [hd2]
              simp
            · exact tokIsImag_pre_run
                (sgn ++ l1.takeWhile isDigitC ++ ['.'])
                (t.takeWhile isDigitC) (by simp) hd2 hdig2 fun c hc => digit_not_j hc
          · exact tokIsImag_pre_run
              (sgn ++ l1.takeWhile isDigitC ++
                '.' :: t.takeWhile isDigitC ++ ec :: sg)
              ds (by simp) hds.1 hds.2 fun c hc => digit_not_j hc
        refine ⟨heq0, ?_, ?_⟩
        · intro him
          rw [hni] at him
          cases him
        · intro _
          refine Or.inr ?_
          have : (sgn ++ l1.takeWhile isDigitC ++ '.' :: t.takeWhile isDigitC
              ++ e1 ++ ([] : List Char)) = sgn ++ l1.takeWhile isDigitC ++
              '.' :: t.takeWhile isDigitC ++ e1 := by simp
          rw [this]
          exact hFl
      · subst hj1
        have hIm : ImagTokP (sgn ++ l1.takeWhile isDigitC ++
            '.' :: t.takeWhile isDigitC ++ e1 ++ [c]) := by
          refine ⟨sgn ++ l1.takeWhile isDigitC ++ '.' :: t.takeWhile isDigitC ++ e1,
            c, Or.inr hFl, hc, by simp⟩
        have hyes : tokIsImag (sgn ++ l1.takeWhile isDigitC ++
            '.' :: t.takeWhile isDigitC ++ e1 ++ [c]) = true :=
          tokIsImag_concat_true
            (sgn ++ l1.takeWhile isDigitC ++ '.' :: t.takeWhile isDigitC ++ e1)
            (by simp) hc
        refine ⟨heq0, fun _ => hIm, ?_⟩
        intro him
        rw [hyes] at him
        cases him
  · rename_i hne
    split at h
    · cases h
    · rename_i hd1
      have hl1 : l1 = l1.takeWhile isDigitC ++ l1.dropWhile isDigitC :=
        (List.takeWhile_append_dropWhile isDigitC l1).symm
      rcases hE : scanExp (l1.dropWhile isDigitC) with ⟨e1, e2⟩
      rw [hE] at h
      dsimp only [] at h
      rcases hJ : scanJ e2 with ⟨j1, j2⟩
      rw [hJ] at h
      dsimp only [] at h
      injection h with h2
      injection h2 with htk hr
      subst htk
      subst hr
      have hEs := scanExp_sound _ hE
      have hJs := scanJ_sound _ hJ
      have hr2 : l1.dropWhile isDigitC = e1 ++ e2 := by
        rcases hEs with ⟨rfl, rfl⟩ | ⟨_, hsp⟩
        · rfl
        · exact hsp
      have he2 : e2 = j1 ++ j2 := by
        rcases hJs with ⟨rfl, rfl⟩ | ⟨c, _, rfl, hsp⟩
        · rfl
        · rw [hsp]
          rfl
      have heD : e1 = [] ∨ ExpP e1 := by
        rcases hEs with ⟨rfl, _⟩ | ⟨hx, _⟩
        · exact Or.inl rfl
        · exact Or.inr hx
      have hDF : DecTokP (sgn ++ l1.takeWhile isDigitC ++ e1)
          ∨ FloatTokP (sgn ++ l1.takeWhile isDigitC ++ e1) := by
        rcases heD with rfl | hx
        · refine Or.inl ⟨sgn, l1.takeWhile isDigitC, hs, ⟨hd1, hdig1⟩, by simp⟩
        · exact Or.inr ⟨sgn, l1.takeWhile isDigitC, e1, hs,
            Or.inr (Or.inr ⟨hd1, hdig1⟩), Or.inr hx, by simp⟩
      have heq0 : sgn ++ l1 = (sgn ++ l1.takeWhile isDigitC ++ e1 ++ j1) ++ j2 := by
        conv_lhs => rw [hl1, hr2, he2]
        simp
      rcases hJs with ⟨hj1, _⟩ | ⟨c, hc, hj1, _⟩
      · subst hj1
        have hni : tokIsImag (sgn ++ l1.takeWhile isDigitC ++ e1
            ++ ([] : List Char)) = false := by
          rcases heD with rfl | ⟨ec, sg, ds, hec, hsg, hds, rfl⟩
          · exact tokIsImag_pre_run sgn (l1.takeWhile isDigitC)
              (by simp) hd1 hdig1 fun c hc => digit_not_j hc
          · exact tokIsImag_pre_run
              (sgn ++ l1.takeWhile isDigitC ++ ec :: sg)
              ds (by simp) hds.1 hds.2 fun c hc => digit_not_j hc
        refine ⟨heq0, ?_, ?_⟩
        · intro him
          rw [hni] at him
          cases him
        · intro _
          have : (sgn ++ l1.takeWhile isDigitC ++ e1 ++ ([] : List Char))
              = sgn ++ l1.takeWhile isDigitC ++ e1 := by simp
          rw [this]
          exact hDF
      · subst hj1
        have hIm : ImagTokP (sgn ++ l1.takeWhile isDigitC ++ e1 ++ [c]) := by
          refine ⟨sgn ++ l1.takeWhile isDigitC ++ e1, c, ?_, hc, by simp⟩
          rcases hDF with hx | hx
          · exact Or.inl hx
          · exact Or.inr hx
        have hyes : tokIsImag (sgn ++ l1.takeWhile isDigitC ++ e1 ++ [c]) = true :=
          tokIsImag_concat_true (sgn ++ l1.takeWhile isDigitC ++ e1)
            (by simp) hc
        refine ⟨heq0, fun _ => hIm, ?_⟩
        intro him
        rw [hyes] at him
        cases him

theorem decFloat_numTok {tk : List Char} (h2 : tokIsImag tk = true → ImagTokP tk)
    (h3 : tokIsImag tk = false → DecTokP tk ∨ FloatTokP tk) : NumTokP tk := by
  cases ht : tokIsImag tk
  · rcases h3 ht with hx | hx
    · exact Or.inl hx
    · exact Or.inr (Or.inr (Or.inr (Or.inr (Or.inl hx))))
  · exact Or.inr (Or.inr (Or.inr (Or.inr (Or.inr (Or.inl (h2 ht))))))

theorem splitSign_sound : ∀ l : List Char,
    SignP (splitSign l).1 ∧ l = (splitSign l).1 ++ (splitSign l).2 := by
  intro l
  cases l with
  | nil => exact ⟨Or.inl rfl, rfl⟩
  | cons c t =>
    by_cases hc : c = '-'
    · subst hc
      rw [show splitSign ('-' :: t) = (['-'], t) from rfl]
      exact ⟨Or.inr rfl, rfl⟩
    · rw [show splitSign (c :: t)
          = (if c = '-' then (['-'], t) else ([], c :: t)) from rfl, if_neg hc]
      exact ⟨Or.inl rfl, rfl⟩

theorem radix_intOrFloat_false {sgn ds : List Char} {x : Char} (hs : SignP sgn)
    (hx : x = 'x' ∨ x = 'X' ∨ x = 'o' ∨ x = 'O' ∨ x = 'b' ∨ x = 'B') :
    tokIsIntOrFloat (sgn ++ '0' :: x :: ds) = false := by
  have hd : (dropSignTok (sgn ++ '0' :: x :: ds)).2 = '0' :: x :: ds := by
    rcases hs with rfl | rfl <;> rfl
  unfold tokIsIntOrFloat
  rw [hd]
  rcases hx with rfl | rfl | rfl | rfl | rfl | rfl <;> simp

theorem radix_imag_false {sgn ds : List Char} {x : Char} {p : Char → Bool}
    (hx : x = 'x' ∨ x = 'X' ∨ x = 'o' ∨ x = 'O' ∨ x = 'b' ∨ x = 'B')
    (hall : ∀ c ∈ ds, p c = true)
    (hp : ∀ c, p c = true → ¬(c = 'j' ∨ c = 'J')) :
    tokIsImag (sgn ++ '0' :: x :: ds) = false := by
  by_cases hds : ds = []
  · subst hds
    refine tokIsImag_pre_char (sgn ++ ['0']) x (by simp) ?_
    rcases hx with rfl | rfl | rfl | rfl | rfl | rfl <;> decide
  · exact tokIsImag_pre_run (sgn ++ ['0', x]) ds (by simp) hds hall hp

theorem scanNumDispatch_sound {sgn l1 tk r : List Char} (hs : SignP sgn)
    (h : scanNumDispatch sgn l1 = some (tk, r)) :
    sgn ++ l1 = tk ++ r ∧ NumTokP tk
    ∧ (tokIsIntOrFloat tk = true → DecTokP tk ∨ FloatTokP tk)
    ∧ (tokIsImag tk = true → ImagTokP tk) := by
  have fromDF : scanDecFloat sgn l1 = some (tk, r) →
      sgn ++ l1 = tk ++ r ∧ NumTokP tk
      ∧ (tokIsIntOrFloat tk = true → DecTokP tk ∨ FloatTokP tk)
      ∧ (tokIsImag tk = true → ImagTokP tk) := by
    intro hdf
    obtain ⟨heq, himT, himF⟩ := scanDecFloat_sound hs hdf
    refine ⟨heq, decFloat_numTok himT himF, ?_, himT⟩
    intro hif
    unfold tokIsIntOrFloat at hif
    rcases Bool.and_eq_true_iff.mp hif with ⟨_, hb⟩
    have himf : tokIsImag tk = false := by
      cases hbb : tokIsImag tk
      · rfl
      · rw [hbb] at hb
        cases hb
    exact himF himf
  match l1 with
  | [] => exact fromDF h
  | [c] => exact fromDF h
  | c :: x :: t =>
    have h2 : (if c = '0' && (x = 'x' || x = 'X') then
        some (sgn ++ c :: x :: t.takeWhile isHexDigitC, t.dropWhile isHexDigitC)
      else if c = '0' && (x = 'o' || x = 'O') then
        some (sgn ++ c :: x :: t.takeWhile isOctDigitC, t.dropWhile isOctDigitC)
      else if c = '0' && (x = 'b' || x = 'B') then
        some (sgn ++ c :: x :: t.takeWhile isBinDigitC, t.dropWhile isBinDigitC)
      else scanDecFloat sgn (c :: x :: t)) = some (tk, r) := h
    by_cases hx1 : (c = '0' && (x = 'x' || x = 'X')) = true
    · rw [if_pos hx1] at h2
      obtain ⟨hc0, hxx⟩ : c = '0' ∧ (x = 'x' ∨ x = 'X') := by simpa using hx1
      subst hc0
      have hx6 : x = 'x' ∨ x = 'X' ∨ x = 'o' ∨ x = 'O' ∨ x = 'b' ∨ x = 'B' := by
        rcases hxx with rfl | rfl
        · exact Or.inl rfl
        · exact Or.inr (Or.inl rfl)
      injection h2 with h3
      injection h3 with htk hr
      subst htk
      subst hr
      refine ⟨by simp [List.takeWhile_append_dropWhile], Or.inr (Or.inl ⟨sgn, x,
        t.takeWhile isHexDigitC, hs, hxx,
        fun d hd => List.mem_takeWhile_imp hd, rfl⟩), ?_, ?_⟩
      · intro hif
        rw [radix_intOrFloat_false hs hx6] at hif
        cases hif
      · intro him
        rw [radix_imag_false (p := isHexDigitC) hx6
          (fun d hd => List.mem_takeWhile_imp hd) (fun d hd => hex_not_j hd)] at him
        cases him
    · rw [if_neg hx1] at h2
      by_cases hx2 : (c = '0' && (x = 'o' || x = 'O')) = true
      · rw [if_pos hx2] at h2
        obtain ⟨hc0, hxx⟩ : c = '0' ∧ (x = 'o' ∨ x = 'O') := by simpa using hx2
        subst hc0
        have hx6 : x = 'x' ∨ x = 'X' ∨ x = 'o' ∨ x = 'O' ∨ x = 'b' ∨ x = 'B' := by
          rcases hxx with rfl | rfl
          · exact Or.inr (Or.inr (Or.inl rfl))
          · exact Or.inr (Or.inr (Or.inr (Or.inl rfl)))
        injection h2 with h3
        injection h3 with htk hr
        subst htk
        subst hr
        refine ⟨by simp [List.takeWhile_append_dropWhile], Or.inr (Or.inr (Or.inl ⟨sgn, x,
          t.takeWhile isOctDigitC, hs, hxx,
          fun d hd => List.mem_takeWhile_imp hd, rfl⟩)), ?_, ?_⟩
        · intro hif
          rw [radix_intOrFloat_false hs hx6] at hif
          cases hif
        · intro him
          rw [radix_imag_false (p := isOctDigitC) hx6
            (fun d hd => List.mem_takeWhile_imp hd) (fun d hd => oct_not_j hd)] at him
          cases him
      · rw [if_neg hx2] at h2
        by_cases hx3 : (c = '0' && (x = 'b' || x = 'B')) = true
        · rw [if_pos hx3] at h2
          obtain ⟨hc0, hxx⟩ : c = '0' ∧ (x = 'b' ∨ x = 'B') := by simpa using hx3
          subst hc0
          have hx6 : x = 'x' ∨ x = 'X' ∨ x = 'o' ∨ x = 'O' ∨ x = 'b' ∨ x = 'B' := by
            rcases hxx with rfl | rfl
            · exact Or.inr (Or.inr (Or.inr (Or.inr (Or.inl rfl))))
            · exact Or.inr (Or.inr (Or.inr (Or.inr (Or.inr rfl))))
          injection h2 with h3
          injection h3 with htk hr
          subst htk
          subst hr
          refine ⟨by simp [List.takeWhile_append_dropWhile],
            Or.inr (Or.inr (Or.inr (Or.inl ⟨sgn, x,
            t.takeWhile isBinDigitC, hs, hxx,
            fun d hd => List.mem_takeWhile_imp hd, rfl⟩))), ?_, ?_⟩
          · intro hif
            rw [radix_intOrFloat_false hs hx6] at hif
            cases hif
          · intro him
            rw [radix_imag_false (p := isBinDigitC) hx6
              (fun d hd => List.mem_takeWhile_imp hd) (fun d hd => bin_not_j hd)] at him
            cases him
        · rw [if_neg hx3] at h2
          exact fromDF h2

theorem scanNumberTok_sound {l tk r : List Char} (h : scanNumberTok l = some (tk, r)) :
    l = tk ++ r ∧ NumTokP tk
    ∧ (tokIsIntOrFloat tk = true → DecTokP tk ∨ FloatTokP tk)
    ∧ (tokIsImag tk = true → ImagTokP tk) := by
  obtain ⟨hsgn, hsplit⟩ := splitSign_sound l
  obtain ⟨heq, hrest⟩ := scanNumDispatch_sound hsgn h
  exact ⟨hsplit.trans heq, hrest⟩

theorem tupEnd_glue_n : ∀ (n : Nat) (t : List Char), t.length ≤ n → TupEndG t →
    ∀ (k : List Char), KeyG k → TupRestG (',' :: k ++ t)
  | 0, _, hlen, ht, _, _ => by
    cases ht with
    | close => simp at hlen
    | closeC => simp at hlen
    | more hk2 ht2 => simp at hlen
  | n + 1, _, hlen, ht, k, hk => by
    cases ht with
    | close => exact TupRestG.last hk
    | closeC => exact TupRestG.lastC hk
    | more hk2 ht2 =>
      rename_i k2 t2
      have hlt : t2.length ≤ n := by
        simp only [List.length_cons, List.length_append] at hlen
        omega
      exact TupRestG.cons hk (tupEnd_glue_n n t2 hlt ht2 k2 hk2)

theorem tupEnd_glue {t : List Char} (ht : TupEndG t) {k : List Char} (hk : KeyG k) :
    TupRestG (',' :: k ++ t) :=
  tupEnd_glue_n t.length t le_rfl ht k hk

theorem parseKeyword_sound {l : List Char} {v : PyVal} {r : List Char}
    (h : parseKeyword l = some (v, r)) : ∃ tk, KeyG tk ∧ l = tk ++ r := by
  unfold parseKeyword at h
  split at h
  · injection h with h2
    injection h2 with _ hr
    subst hr
    exact ⟨['T', 'r', 'u', 'e'], KeyG.boolean (Or.inl rfl), rfl⟩
  · injection h with h2
    injection h2 with _ hr
    subst hr
    exact ⟨['F', 'a', 'l', 's', 'e'], KeyG.boolean (Or.inr rfl), rfl⟩
  · injection h with h2
    injection h2 with _ hr
    subst hr
    exact ⟨['N', 'o', 'n', 'e'], KeyG.noneKw, rfl⟩
  · cases h

theorem parseSliceTry_sound {l : List Char} {v : PyVal} {r : List Char}
    (h : parseSliceTry l = some (v, r)) : ∃ tk, SliceTokP tk ∧ l = tk ++ r := by
  unfold parseSliceTry at h
  rcases h1 : scanIntOpt l with ⟨o1, r1⟩
  obtain ⟨a, ha, hla⟩ := scanIntOpt_sound h1
  rw [h1] at h
  dsimp only [] at h
  split at h
  · rename_i t
    rcases h2 : scanIntOpt t with ⟨o2, r2⟩
    obtain ⟨b, hb, htb⟩ := scanIntOpt_sound h2
    rw [h2] at h
    dsimp only [] at h
    split at h
    · rename_i u
      rcases h3 : scanIntOpt u with ⟨o3, r3⟩
      obtain ⟨cc, hc, huc⟩ := scanIntOpt_sound h3
      rw [h3] at h
      dsimp only [] at h
      injection h with h4
      injection h4 with _ hr
      subst hr
      refine ⟨a ++ ':' :: b ++ ':' :: cc, Or.inr ⟨a, b, cc, ha, hb, hc, rfl⟩, ?_⟩
      rw [hla, htb, huc]
      simp
    · injection h with h4
      injection h4 with _ hr
      subst hr
      refine ⟨a ++ ':' :: b, Or.inl ⟨a, b, ha, hb, rfl⟩, ?_⟩
      rw [hla, htb]
      simp
  · cases h

theorem parseComplexTok_sound {l : List Char} {v : PyVal} {r : List Char}
    (h : parseComplexTok l = some (v, r)) : ∃ tk, CplxTokP tk ∧ l = tk ++ r := by
  unfold parseComplexTok at h
  split at h
  · rename_i t
    split at h
    · rename_i tk1 r1 hscan1
      split at h
      · rename_i hif
        split at h
        · rename_i op r2
          split at h
          · rename_i hop
            split at h
            · rename_i tk2 r3 hscan2
              split at h
              · rename_i him
                split at h
                · rename_i r4
                  injection h with h4
                  injection h4 with _ hr
                  subst hr
                  obtain ⟨ht1, _, hdf1, _⟩ := scanNumberTok_sound hscan1
                  obtain ⟨ht2, _, _, him2⟩ := scanNumberTok_sound hscan2
                  refine ⟨'(' :: tk1 ++ op :: tk2 ++ [')'],
                    ⟨tk1, op, tk2, (hdf1 hif).symm, by simpa using hop,
                      him2 him, rfl⟩, ?_⟩
                  rw [ht1, ht2]
                  simp
                · cases h
              · cases h
            · cases h
          · cases h
        · cases h
      · cases h
    · cases h
  · cases h

mutual
theorem parseKeyCore_sound : ∀ (f : Nat) (l : List Char) (k : PyVal) (r : List Char),
    parseKeyCore f l = some (k, r) → ∃ tk, KeyG tk ∧ l = tk ++ r
  | 0, _, _, _, h => by cases h
  | f + 1, l, k, r, h => by
    simp only [parseKeyCore] at h
    split at h
    · cases h
    · rename_i c t
      by_cases h1 : (c = '\'' || c = '"') = true
      · rw [if_pos h1] at h
        rcases Option.map_eq_some'.mp h with ⟨⟨w, r'⟩, hscan, hmap⟩
        have hmap2 : (PyVal.str ⟨w⟩, r') = (k, r) := hmap
        have hr : r = r' := by injection hmap2 with _ b; exact b.symm
        subst hr
        have hbody := scanStrB_body c t false w r hscan
        have hsp := scanStrB_splice c t false w r hscan
        refine ⟨c :: w ++ [c], KeyG.string ⟨c, w, by simpa using h1, hbody, rfl⟩, ?_⟩
        rw [hsp]
        simp
      · rw [if_neg h1] at h
        by_cases h2 : c = '('
        · subst h2
          rw [if_pos rfl] at h
          split at h
          · rename_i res hcx
            have hres : res = (k, r) := Option.some.inj h
            subst hres
            obtain ⟨tk, hcp, hsp⟩ := parseComplexTok_sound hcx
            exact ⟨tk, KeyG.num
              (Or.inr (Or.inr (Or.inr (Or.inr (Or.inr (Or.inr hcp)))))), hsp⟩
          · split at h
            · rename_i r0
              injection h with h3
              injection h3 with _ hr
              subst hr
              exact ⟨['(', ')'], KeyG.tup TupG.empty, rfl⟩
            · split at h
              · rename_i k1 r1 hk1
                rcases Option.map_eq_some'.mp h with ⟨⟨ks2, r2⟩, hrest, hmap⟩
                have hr : r = r2 := by
                  have hmap2 : (PyVal.tuple (.cons k1 ks2), r2) = (k, r) := hmap
                  injection hmap2 with _ b
                  exact b.symm
                subst hr
                obtain ⟨tk1, hkey, ht1⟩ := parseKeyCore_sound f t k1 r1 hk1
                obtain ⟨tk2, htr, hr1⟩ := parseTupRest1_sound f r1 ks2 r hrest
                refine ⟨'(' :: tk1 ++ tk2, ?_, ?_⟩
                · rcases htr with rfl | htr2
                  · exact KeyG.tup (TupG.single hkey)
                  · exact KeyG.tup (TupG.multi hkey htr2)
                · rw [ht1, hr1]
                  simp
              · cases h
        · rw [if_neg h2] at h
          by_cases h3 : (c = 'T' || c = 'F' || c = 'N') = true
          · rw [if_pos h3] at h
            exact parseKeyword_sound h
          · rw [if_neg h3] at h
            split at h
            · rename_i res hsl
              have hres : res = (k, r) := Option.some.inj h
              subst hres
              obtain ⟨tk, hsp, heq⟩ := parseSliceTry_sound hsl
              exact ⟨tk, KeyG.slice hsp, heq⟩
            · split at h
              · rename_i tkn rn hscan
                rcases Option.map_eq_some'.mp h with ⟨v', hnum, hmap⟩
                have hr : r = rn := by
                  have hmap2 : (v', rn) = (k, r) := hmap
                  injection hmap2 with _ b
                  exact b.symm
                subst hr
                obtain ⟨heq, hnumP, _, _⟩ := scanNumberTok_sound hscan
                exact ⟨tkn, KeyG.num hnumP, heq⟩
              · cases h

theorem parseTupRest1_sound : ∀ (f : Nat) (l : List Char) (ks : PyVals) (r : List Char),
    parseTupRest1 f l = some (ks, r) →
    ∃ tk, (tk = [',', ')'] ∨ TupRestG tk) ∧ l = tk ++ r
  | 0, _, _, _, h => by cases h
  | f + 1, l, ks, r, h => by
    simp only [parseTupRest1] at h
    split at h
    · rename_i r0
      injection h with h2
      injection h2 with _ hr
      subst hr
      exact ⟨[',', ')'], Or.inl rfl, rfl⟩
    · rename_i t hne
      split at h
      · rename_i k1 r1 hk1
        rcases Option.map_eq_some'.mp h with ⟨⟨ks2, r2⟩, hrest, hmap⟩
        have hr : r = r2 := by
          have hmap2 : (PyVals.cons k1 ks2, r2) = (ks, r) := hmap
          injection hmap2 with _ b
          exact b.symm
        subst hr
        obtain ⟨tk1, hkey, ht1⟩ := parseKeyCore_sound f t k1 r1 hk1
        obtain ⟨tk2, hend, hr1⟩ := parseTupRestN_sound f r1 ks2 r hrest
        refine ⟨',' :: tk1 ++ tk2, Or.inr (tupEnd_glue hend hkey), ?_⟩
        rw [ht1, hr1]
        simp
      · cases h
    · cases h

theorem parseTupRestN_sound : ∀ (f : Nat) (l : List Char) (ks : PyVals) (r : List Char),
    parseTupRestN f l = some (ks, r) → ∃ tk, TupEndG tk ∧ l = tk ++ r
  | 0, _, _, _, h => by cases h
  | f + 1, l, ks, r, h => by
    simp only [parseTupRestN] at h
    split at h
    · rename_i r0
      injection h with h2
      injection h2 with _ hr
      subst hr
      exact ⟨[')'], TupEndG.close, rfl⟩
    · rename_i r0
      injection h with h2
      injection h2 with _ hr
      subst hr
      exact ⟨[',', ')'], TupEndG.closeC, rfl⟩
    · rename_i t hne
      split at h
      · rename_i k1 r1 hk1
        rcases Option.map_eq_some'.mp h with ⟨⟨ks2, r2⟩, hrest, hmap⟩
        have hr : r = r2 := by
          have hmap2 : (PyVals.cons k1 ks2, r2) = (ks, r) := hmap
          injection hmap2 with _ b
          exact b.symm
        subst hr
        obtain ⟨tk1, hkey, ht1⟩ := parseKeyCore_sound f t k1 r1 hk1
        obtain ⟨tk2, hend, hr1⟩ := parseTupRestN_sound f r1 ks2 r hrest
        exact ⟨',' :: tk1 ++ tk2, TupEndG.more hkey hend, by rw [ht1, hr1]; simp⟩
      · cases h
    · cases h
end

theorem parseSegsCore_sound : ∀ (f : Nat) (l : List Char) (ks : List PyVal) (r : List Char),
    parseSegsCore f l = some (ks, r) → ∃ t2, SegsG t2 ∧ l = t2 ++ r
  | 0, _, _, _, h => by cases h
  | f + 1, l, ks, r, h => by
    simp only [parseSegsCore] at h
    split at h
    · rename_i t
      split at h
      · rename_i w r1 hscan
        rcases Option.map_eq_some'.mp h with ⟨⟨ks2, r2⟩, hseg, hmap⟩
        have hr : r = r2 := by
          have hmap2 : (PyVal.str (identValue w) :: ks2, r2) = (ks, r) := hmap
          injection hmap2 with _ b
          exact b.symm
        subst hr
        obtain ⟨hident, hsp⟩ := scanIdent_sound hscan
        obtain ⟨t2, hsg, hsp2⟩ := parseSegsCore_sound f r1 ks2 r hseg
        refine ⟨('.' :: w) ++ t2, SegsG.cons (SegG.dot hident) hsg, ?_⟩
        rw [hsp, hsp2]
        simp
      · cases h
    · rename_i t
      split at h
      · rename_i k1 r1 hk1
        split at h
        · rename_i r2
          rcases Option.map_eq_some'.mp h with ⟨⟨ks2, r3⟩, hseg, hmap⟩
          have hr : r = r3 := by
            have hmap2 : (k1 :: ks2, r3) = (ks, r) := hmap
            injection hmap2 with _ b
            exact b.symm
          subst hr
          obtain ⟨tk1, hkey, ht1⟩ := parseKeyCore_sound (t.length + 1) t k1 (']' :: r2) hk1
          obtain ⟨t2, hsg, hsp2⟩ := parseSegsCore_sound f r2 ks2 r hseg
          refine ⟨('[' :: tk1 ++ [']']) ++ t2, SegsG.cons (SegG.idx hkey) hsg, ?_⟩
          rw [ht1, hsp2]
          simp
        · cases h
      · cases h
    · rename_i hne1 hne2
      injection h with h2
      injection h2 with hks hr
      subst hr
      exact ⟨[], SegsG.nil, rfl⟩

theorem parsePathCore_sound {l : List Char} {p : PyPath}
    (h : parsePathCore l = some p) : PathL l := by
  unfold parsePathCore at h
  split at h
  · exact Or.inl rfl
  · rename_i c t
    by_cases hc : c = '['
    · subst hc
      rw [if_pos rfl] at h
      split at h
      · rename_i k1 r1 hk1
        split at h
        · rename_i r2
          split at h
          · rename_i ks r3 hsegs
            split at h
            · rename_i hr3
              subst hr3
              obtain ⟨tk1, hkey, ht1⟩ := parseKeyCore_sound (t.length + 1) t k1 (']' :: r2) hk1
              obtain ⟨t2, hsg, hsp2⟩ := parseSegsCore_sound (r2.length + 1) r2 ks [] hsegs
              refine Or.inr ⟨'[' :: tk1 ++ [']'], t2, FirstG.idx hkey, hsg, ?_⟩
              rw [ht1, hsp2]
              simp
            · cases h
          · cases h
        · cases h
      · cases h
    · rw [if_neg hc] at h
      by_cases hid : isIdStartC c = true
      · rw [if_pos hid] at h
        split at h
        · rename_i w r1 hscan
          split at h
          · rename_i ks r2 hsegs
            split at h
            · rename_i hr2
              subst hr2
              obtain ⟨hident, hsp⟩ := scanIdent_sound hscan
              obtain ⟨t2, hsg, hsp2⟩ := parseSegsCore_sound (r1.length + 1) r1 ks [] hsegs
              refine Or.inr ⟨w, t2, FirstG.ident hident, hsg, ?_⟩
              rw [hsp, hsp2]
              simp
            · cases h
          · cases h
        · cases h
      · rw [if_neg hid] at h
        cases h

theorem parsePath_sound {s : String} {p : PyPath} (h : parsePath s = some p) :
    PathL s.data :=
  parsePathCore_sound h

/-! ### Support for the claim theorems -/

theorem scanStrB_complete (q : Char) (hq : ¬(q = '\n')) :
    ∀ (w : List Char) (esc : Bool) (r : List Char), bodyOkB q esc w = true →
    scanStrB q esc (w ++ q :: r) = some (w, r) := by
  intro w
  induction w with
  | nil =>
    intro esc r hb
    have hesc : esc = false := by
      cases esc
      · rfl
      · cases hb
    subst hesc
    show scanStrB q false (q :: r) = some ([], r)
    simp only [scanStrB, if_neg hq]
    rw [if_pos (by simp)]
  | cons c w ih =>
    intro esc r hb
    simp only [bodyOkB] at hb
    by_cases h1 : c = '\n'
    · rw [if_pos h1] at hb
      cases hb
    · rw [if_neg h1] at hb
      by_cases h2 : (c = q && !esc) = true
      · rw [if_pos h2] at hb
        cases hb
      · rw [if_neg h2] at hb
        show scanStrB q esc (c :: (w ++ q :: r)) = some (c :: w, r)
        by_cases h3 : c = '\\'
        · simp only [scanStrB, if_neg h1, if_neg h2, if_pos h3]
          rw [if_pos h3] at hb
          rw [ih (!esc) r hb]
          rfl
        · simp only [scanStrB, if_neg h1, if_neg h2, if_neg h3]
          rw [if_neg h3] at hb
          rw [ih false r hb]
          rfl

/-! ## The claims -/

/-- C2: `construct` succeeds exactly on recursively admissible keys (the
validator `isValidPart`); on any invalid key list it raises a `ValueError`
whose message contains the `repr` of every key, the rejected ones included —
in particular `[1, 2]` appears verbatim in the message for `construct([1,2])`. -/
theorem construct_validates :
    (∀ ks : List PyVal, construct ks = .ok ⟨ks⟩ ↔ ks.all isValidPart = true)
    ∧ (∀ ks : List PyVal, ks.all isValidPart = false →
        ∃ m, construct ks = .error m ∧ ∀ v ∈ ks, reprC v <:+: m.data)
    ∧ (∃ m, construct [.list (.cons (.int 1) (.cons (.int 2) .nil))] = .error m
        ∧ ('[' :: '1' :: ',' :: ' ' :: '2' :: ']' :: []) <:+: m.data) := by
  refine ⟨construct_ok_iff, ?_, ?_⟩
  · intro ks hbad
    have hfalse : isValidParts (PyVals.ofList ks) = false := by
      rw [validParts_all]
      exact hbad
    obtain ⟨hc, hin⟩ := construct_error_mem_sub ks hfalse
    exact ⟨_, hc, fun v hv => hin v hv⟩
  · have hfalse : isValidParts
        (PyVals.ofList [PyVal.list (.cons (.int 1) (.cons (.int 2) .nil))]) = false := rfl
    obtain ⟨hc, hin⟩ := construct_error_mem_sub _ hfalse
    refine ⟨_, hc, ?_⟩
    have h1 := hin _ (List.mem_singleton.mpr rfl)
    exact (show reprC (PyVal.list (.cons (.int 1) (.cons (.int 2) .nil)))
      = ['[', '1', ',', ' ', '2', ']'] from rfl) ▸ h1

/-- Witness for C2 at the concrete key list `[1]` (valid) — the iff applied
in the accepting direction. -/
theorem construct_validates_witness :
    ([PyVal.int 1].all isValidPart = true)
    ∧ construct [PyVal.int 1] = .ok ⟨[PyVal.int 1]⟩ :=
  ⟨by decide, (construct_validates.1 [PyVal.int 1]).mpr (by decide)⟩

/-- C3: `Path.__eq__` is `False` on every non-Path value (and raises
nothing); between Paths it holds exactly when the part sequences are
elementwise equal by Python value equality. -/
theorem path_eq_semantics :
    (∀ (p : PyPath) (v : PyVal), pathEqObj p (.val v) = false)
    ∧ (∀ p q : PyPath, pathEqObj p (.path q) = true
        ↔ List.Forall₂ (fun a b => pyEq a b = true) p.parts q.parts) := by
  constructor
  · intro p v
    rfl
  · intro p q
    exact partsEq_iff_forall2 p.parts q.parts

/-- Witness for C3: a Path differs from the bare value `1`, and the Paths
`[True]` and `[1]` are equal by value though their texts differ. -/
theorem path_eq_semantics_witness :
    pathEqObj ⟨[.int 1]⟩ (.val (.int 1)) = false
    ∧ pathEqObj ⟨[.bool true]⟩ (.path ⟨[.int 1]⟩) = true := by
  refine ⟨path_eq_semantics.1 ⟨[.int 1]⟩ (.int 1), ?_⟩
  exact (path_eq_semantics.2 ⟨[.bool true]⟩ ⟨[.int 1]⟩).mpr
    (List.Forall₂.cons (by decide) List.Forall₂.nil)

/-- C5: every string the parser accepts lies in the grammar language `PathL`
(nothing outside the grammar is silently accepted), and in particular the
empty dotted segment `"a..b"` and the four-bound slice `"a[1:2:3:4]"` are
parse errors. -/
theorem parser_rejects_nongrammar :
    (∀ (s : String) (p : PyPath), parsePath s = some p → PathL s.data)
    ∧ parsePath "a..b" = none
    ∧ parsePath "a[1:2:3:4]" = none :=
  ⟨fun _ _ h => parsePath_sound h, rfl, rfl⟩

/-- Witness for C5 on the accepted input `"a"`. -/
theorem parser_rejects_nongrammar_witness :
    parsePath "a" = some ⟨[.str "a"]⟩ ∧ PathL "a".data :=
  ⟨rfl, parser_rejects_nongrammar.1 "a" ⟨[.str "a"]⟩ rfl⟩

/-- C6 (corrected): the Transformer strips the surrounding quotes but does
not resolve backslash escapes (`args[0][1:-1]`, paths.py line 157): a parsed
string key is the raw body between the quotes. -/
theorem string_strip_only (f : Nat) (q : Char) (w r : List Char)
    (hq : q = '\'' ∨ q = '"') (hw : bodyOkB q false w = true) :
    parseKeyCore (f + 1) (q :: w ++ q :: r) = some (.str ⟨w⟩, r) := by
  have hqn : ¬(q = '\n') := by rcases hq with rfl | rfl <;> decide
  have hscan := scanStrB_complete q hqn w false r hw
  rw [List.cons_append]
  simp only [parseKeyCore]
  rw [if_pos (show (q = '\'' || q = '"') = true by
    rcases hq with rfl | rfl <;> simp)]
  rw [hscan]
  rfl

/-- Witness for C6 on the one-character body `a` in single quotes. -/
theorem string_strip_only_witness :
    parseKeyCore 6 ['\'', 'a', '\''] = some (.str ⟨['a']⟩, []) :=
  string_strip_only 5 '\'' ['a'] [] (Or.inl rfl) (by decide)

/-- C6 counterexample: parsing a bracketed string key whose body is two
backslashes yields the raw two-character body, not the single backslash that
resolving the `\\` escape would give. -/
theorem string_escape_counterexample :
    parsePath "['\\\\']" = some ⟨[.str "\\\\"]⟩
    ∧ ("\\\\" : String) ≠ "\\" := ⟨rfl, by decide⟩


/-- `PathTransformer.identifier` keeps only the first `ID_START` token: the
program parses `"x1"` to the single key `"x"`, dropping the digit run that
the `identifier` rule consumed. -/
theorem parsePath_ident_truncates :
    parsePath "x1" = some ⟨[.str "x"]⟩ ∧ identValue ['x', '1'] = "x" := ⟨rfl, rfl⟩
